import Mathlib

/-!
Verification development for the Threadscape process-metrics engine
(the report generator script of this repository).  The JavaScript source is
shallowly embedded: strings are Lean strings, JS numbers arising in the
metrics are exact rationals, JS `Map`/`Set` are association lists and
first-occurrence-deduplicated lists, and calendar dates are civil day
numbers converted to epoch milliseconds relative to an explicit host
time-zone offset (minutes east of UTC), mirroring `new Date(s + "T00:00:00")`
followed by `getTime()` arithmetic.
-/

namespace Threadscape

/-- JS whitespace test for the regexes `\s` used in the script (ASCII
whitespace characters; the script's area labels are plain text). -/
def isWs (c : Char) : Bool :=
  c = ' ' ∨ c = '\t' ∨ c = '\n' ∨ c = '\r' ∨ c = '\x0b' ∨ c = '\x0c'

/-- One pass of `String.replace(/\s+/g, " ")`: every maximal run of
whitespace becomes a single space.  The flag records whether the previous
character belonged to a whitespace run. -/
def collapseGo : Bool → List Char → List Char
  | _, [] => []
  | prevWs, c :: cs =>
    if isWs c then
      if prevWs then collapseGo true cs else ' ' :: collapseGo true cs
    else c :: collapseGo false cs

/-- `String.replace(/\s+/g, " ")` on the character list of a string. -/
def collapseWs (l : List Char) : List Char := collapseGo false l

/-- `String.trim()`: drop leading and trailing whitespace. -/
def trimChars (l : List Char) : List Char :=
  ((l.dropWhile isWs).reverse.dropWhile isWs).reverse

/-- `String.toLowerCase()` (ASCII, which covers the labels the script
canonicalizes). -/
def lowerChars (l : List Char) : List Char := l.map Char.toLower

/-- Lower-case alphanumeric test for the regex `[^a-z0-9]` (applied after
lower-casing in the script). -/
def isLowAlnum (c : Char) : Bool :=
  ('a' ≤ c ∧ c ≤ 'z') ∨ ('0' ≤ c ∧ c ≤ '9')

/-- `String.replace(/[^a-z0-9]+/g, " ")`: maximal runs of
non-alphanumeric characters become single spaces. -/
def alnumGo : Bool → List Char → List Char
  | _, [] => []
  | prevBad, c :: cs =>
    if isLowAlnum c then c :: alnumGo false cs
    else if prevBad then alnumGo true cs else ' ' :: alnumGo true cs

/-- Substring containment, as `String.includes` restricted to the ASCII
needles used by `macroFromAreas`. -/
def containsSub (needle : List Char) : List Char → Bool
  | [] => needle.isPrefixOf []
  | c :: cs => needle.isPrefixOf (c :: cs) || containsSub needle cs

/-- JS `<` on strings: lexicographic comparison of code units (all
strings in this development stay within the basic multilingual plane,
where code-unit and code-point order agree). -/
def jsStrLt : List Char → List Char → Bool
  | [], [] => false
  | [], _ :: _ => true
  | _ :: _, [] => false
  | a :: as, b :: bs =>
    if a.val < b.val then true
    else if b.val < a.val then false
    else jsStrLt as bs

/-- A JS `Set` built by inserting the elements of a list in order:
first occurrence wins, insertion order preserved. -/
def jsSetOfList {α : Type} [DecidableEq α] (l : List α) : List α :=
  l.foldl (fun acc a => if a ∈ acc then acc else acc ++ [a]) []

/-- The `txt` of `canonicalAreaName`: collapse whitespace, then trim. -/
def cleanTxt (value : String) : String :=
  String.mk (trimChars (collapseWs value.data))

/-- The `low` of `canonicalAreaName`. -/
def lowOf (s : String) : String := String.mk (lowerChars s.data)

/-- `canonicalAreaName` from the script: collapse whitespace, trim, and map
the three historically renamed labels (case-insensitively) to their
canonical forms; anything else passes through. -/
def canonicalAreaName (value : String) : String :=
  if cleanTxt value = "" then ""
  else if lowOf (cleanTxt value) = "speculative" ∨
      lowOf (cleanTxt value) = "speculative design" then "Speculative Design"
  else if lowOf (cleanTxt value) = "communication" ∨
      lowOf (cleanTxt value) = "communication design" then "Communication Design"
  else if lowOf (cleanTxt value) = "interaction" ∨
      lowOf (cleanTxt value) = "interaction design" then "Interaction Design"
  else cleanTxt value

/-- The deduplication key of `normalizeAreaList`: lower-case, collapse
non-alphanumeric runs to single spaces, trim, collapse whitespace. -/
def normKey (mapped : String) : String :=
  String.mk (collapseWs (trimChars (alnumGo false (lowerChars mapped.data))))

/-- The `push` closure of `normalizeAreaList`: state is the set of seen
keys (a list, membership only) together with the output list. -/
def pushArea (st : List String × List String) (raw : String) :
    List String × List String :=
  if canonicalAreaName raw = "" then st
  else if normKey (canonicalAreaName raw) = "" ∨ normKey (canonicalAreaName raw) ∈ st.1 then st
  else (st.1 ++ [normKey (canonicalAreaName raw)], st.2 ++ [canonicalAreaName raw])

/-- `normalizeAreaList` on two already-flattened argument lists (the
script's `apply` turns the primary `areas` value and the legacy fields
into exactly such flat lists; see `applyAreas`). -/
def normalizeAreas (areas legacy : List String) : List String :=
  ((areas ++ legacy).foldl pushArea ([], [])).2

/-- `macroFromAreas`: substring scoring of the three keyword stems over the
lower-cased area labels; strict-majority bucket wins, ties among nonzero
top scores give `mixed`, all-zero gives `unknown` (the script's stable
descending sort over the three fixed entries reduces to exactly this). -/
inductive MacroK : Type
  | speculative | communication | interaction | mixed | unknown
deriving DecidableEq

def macroFromAreas (areas : List String) : MacroK :=
  let ss := areas.countP (fun a => containsSub "specul".data (lowerChars a.data))
  let sc := areas.countP (fun a =>
    containsSub "comunic".data (lowerChars a.data) ||
    containsSub "communicat".data (lowerChars a.data))
  let si := areas.countP (fun a => containsSub "inter".data (lowerChars a.data))
  let top := max ss (max sc si)
  if top = 0 then .unknown
  else
    let tied : Nat := (if ss = top then 1 else 0) + (if sc = top then 1 else 0) +
      (if si = top then 1 else 0)
    if 2 ≤ tied then .mixed
    else if ss = top then .speculative
    else if sc = top then .communication
    else .interaction

/-! ## Calendar dates

`parseDate` in the script builds `new Date(dateStr + "T00:00:00")`, i.e. it
interprets the documented `YYYY-MM-DD` strings as local midnight in the
host's time zone and everything downstream works on `getTime()`
milliseconds.  The embedding parses the documented format, converts to a
civil day number (days since 1970-01-01, Gregorian), and obtains epoch
milliseconds relative to an explicit constant host offset `tz` in minutes
east of UTC. -/

/-- Civil date to days since the epoch (standard Gregorian algorithm). -/
def daysFromCivil (y m d : Int) : Int :=
  let y' := if m ≤ 2 then y - 1 else y
  let era := Int.fdiv y' 400
  let yoe := y' - era * 400
  let mp := if 2 < m then m - 3 else m + 9
  let doy := Int.fdiv (153 * mp + 2) 5 + d - 1
  let doe := yoe * 365 + Int.fdiv yoe 4 - Int.fdiv yoe 100 + doy
  era * 146097 + doe - 719468

/-- Days since the epoch back to a civil `(year, month, day)` triple. -/
def civilFromDays (z0 : Int) : Int × Int × Int :=
  let z := z0 + 719468
  let era := Int.fdiv z 146097
  let doe := z - era * 146097
  let yoe := Int.fdiv (doe - Int.fdiv doe 1460 + Int.fdiv doe 36524 - Int.fdiv doe 146096) 365
  let y := yoe + era * 400
  let doy := doe - (365 * yoe + Int.fdiv yoe 4 - Int.fdiv yoe 100)
  let mp := Int.fdiv (5 * doy + 2) 153
  let d := doy - Int.fdiv (153 * mp + 2) 5 + 1
  let m := if mp < 10 then mp + 3 else mp - 9
  (if m ≤ 2 then y + 1 else y, m, d)

def digitVal (c : Char) : Option Nat :=
  if c.isDigit then some (c.toNat - 48) else none

def isLeap (y : Int) : Bool := (y % 4 = 0 ∧ y % 100 ≠ 0) ∨ y % 400 = 0

def daysInMonth (y m : Int) : Int :=
  if m = 2 then (if isLeap y then 29 else 28)
  else if m = 4 ∨ m = 6 ∨ m = 9 ∨ m = 11 then 30 else 31

/-- `parseDate`: a `YYYY-MM-DD` string to its civil day number, `none` for
the empty string, malformed strings and out-of-range components (for which
`new Date` yields an invalid date and the script returns `null`). -/
def parseDate (s : String) : Option Int :=
  match s.data with
  | [y1, y2, y3, y4, h1, m1, m2, h2, d1, d2] =>
    if h1 = '-' ∧ h2 = '-' then
      match digitVal y1, digitVal y2, digitVal y3, digitVal y4,
            digitVal m1, digitVal m2, digitVal d1, digitVal d2 with
      | some a, some b, some c, some d, some e, some f, some g, some h =>
        let yr : Int := (a * 1000 + b * 100 + c * 10 + d : Nat)
        let mo : Int := (e * 10 + f : Nat)
        let dy : Int := (g * 10 + h : Nat)
        if 1 ≤ mo ∧ mo ≤ 12 ∧ 1 ≤ dy ∧ dy ≤ daysInMonth yr mo then
          some (daysFromCivil yr mo dy)
        else none
      | _, _, _, _, _, _, _, _ => none
    else none
  | _ => none

/-- Local midnight of a civil day as epoch milliseconds, for a host whose
UTC offset is `tz` minutes east. -/
def epochMsOfDay (day tz : Int) : Int := day * 86400000 - tz * 60000

def msPerDay : Int := 86400000
def weekMs : Int := 604800000

def pad2 (n : Int) : String := (if n < 10 then "0" else "") ++ toString n

def pad4 (n : Int) : String :=
  (if n < 10 then "000" else if n < 100 then "00" else if n < 1000 then "0" else "") ++ toString n

/-- `d.toISOString().slice(0, 10)`: render the UTC calendar day of an epoch
instant. -/
def isoOfMs (ms : Int) : String :=
  let day := Int.fdiv ms msPerDay
  let c := civilFromDays day
  pad4 c.1 ++ "-" ++ pad2 c.2.1 ++ "-" ++ pad2 c.2.2

/-! ## Scalar statistics (`median`, `mean`, `minmax`)

JS numbers appearing in these metrics are embedded as exact rationals, so
the `Number.isFinite` filters inside the script's helpers keep every
element; only the aggregator's `null` entries (absent medians) are dropped,
which the callers model with `Option`/`filterMap`. -/

def insertSortedQ (x : ℚ) : List ℚ → List ℚ
  | [] => [x]
  | y :: ys => if x ≤ y then x :: y :: ys else y :: insertSortedQ x ys

/-- `values.sort((a, b) => a - b)`. -/
def sortQ (l : List ℚ) : List ℚ := l.foldr insertSortedQ []

/-- `median`: `null` on the empty list, middle element for odd length, mean
of the two middle elements for even length (`mid = Math.floor(len / 2)`). -/
def median (values : List ℚ) : Option ℚ :=
  if (sortQ values).length = 0 then none
  else if (sortQ values).length % 2 = 1 then
    some ((sortQ values).getD ((sortQ values).length / 2) 0)
  else
    some (((sortQ values).getD ((sortQ values).length / 2 - 1) 0 +
      (sortQ values).getD ((sortQ values).length / 2) 0) / 2)

/-- `mean`. -/
def meanQ (values : List ℚ) : Option ℚ :=
  if values.length = 0 then none else some (values.sum / values.length)

/-- `minmax`. -/
def minmaxQ (values : List ℚ) : Option ℚ × Option ℚ :=
  match values with
  | [] => (none, none)
  | v :: vs => (some (vs.foldl min v), some (vs.foldl max v))

/-! ## The document model

A parsed `project.json`, restricted to the fields the metrics engine
reads.  String-valued fields carry the script's `String(x || "")`
coercion (absent becomes `""`); `nodes`/`edges` are `none` when the
corresponding top-level field is not an array (`Array.isArray` fails). -/

structure RawNode where
  id : String := ""
  action : String := ""
  date : String := ""
  /-- `data.areas`: absent/falsy, an array of labels, or a single label. -/
  areas : Option (List String ⊕ String) := none
  /-- `data.mainAreas` when it is an array, else `[]`. -/
  mainAreas : List String := []
  mainArea : String := ""
  mainarea : String := ""
  type : String := ""
deriving DecidableEq

structure RawEdge where
  s : String := ""
  t : String := ""
  dashed : Bool := false
deriving DecidableEq

structure RawDoc where
  nodes : Option (List RawNode) := none
  edges : Option (List RawEdge) := none
deriving DecidableEq

/-- The `apply` closure of `normalizeAreaList`: flatten the primary
`areas` value into the list of pushed raw labels (a falsy single value is
skipped; an array is pushed element by element). -/
def applyAreas : Option (List String ⊕ String) → List String
  | none => []
  | some (.inl l) => l
  | some (.inr s) => if s = "" then [] else [s]

inductive ActK : Type
  | exploring | making | other
deriving DecidableEq

/-- A normalized node as built by the node-mapping pass of
`computeMetricsForProject`.  `date` is the `getTime()` value under the
ambient host offset. -/
structure PNode where
  id : String
  action : ActK
  date : Option Int
  areas : List String
  macroCat : MacroK
  type : String
deriving DecidableEq

/-- The node-mapping pass of `computeMetricsForProject`. -/
def normalizeNode (tz : Int) (n : RawNode) : PNode :=
  let legacy := n.mainAreas ++ [n.mainArea, n.mainarea]
  let areas := normalizeAreas (applyAreas n.areas) legacy
  let actionStr := String.mk (trimChars (lowerChars n.action.data))
  { id := n.id
    action := if actionStr = "exploring" then .exploring
              else if actionStr = "making" then .making else .other
    date := (parseDate n.date).map (epochMsOfDay · tz)
    areas := areas
    macroCat := macroFromAreas areas
    type := String.mk (trimChars n.type.data) }

/-- `idToIndex.has`. -/
def hasId (ns : List PNode) (id : String) : Bool := ns.any (fun n => n.id == id)

/-- `nodes[idToIndex.get(id)]`: the forEach over nodes overwrites the map
entry, so a duplicated id resolves to its last occurrence. -/
def nodeById (ns : List PNode) (id : String) : Option PNode :=
  ns.foldl (fun acc n => if n.id = id then some n else acc) none

/-- The validity filter on edges: nonempty endpoints, no self-loop, both
endpoints known node ids. -/
def validEdges (ns : List PNode) (rawEdges : List RawEdge) : List RawEdge :=
  rawEdges.filter (fun e =>
    !(e.s == "") && !(e.t == "") && !(e.s == e.t) && hasId ns e.s && hasId ns e.t)

/-- Out-degree of a node id: the loop over valid edges increments the
source's counter once per edge occurrence. -/
def outDeg (es : List RawEdge) (id : String) : Nat := es.countP (fun e => e.s == id)

/-- In-degree of a node id. -/
def inDeg (es : List RawEdge) (id : String) : Nat := es.countP (fun e => e.t == id)

/-! ## Weekly buckets and interlacing -/

structure Bucket where
  exploring : Nat := 0
  making : Nat := 0
  total : Nat := 0
deriving DecidableEq

/-- Increment one bucket for an occurrence of `act`. -/
def bumpB (act : ActK) (b : Bucket) : Bucket :=
  { exploring := b.exploring + (if act = .exploring then 1 else 0)
    making := b.making + (if act = .making then 1 else 0)
    total := b.total + 1 }

/-- One step of the bucket loop: fetch the bucket of week `w` (or a fresh
one), increment the action counter and the total, and store it back.
`Map.set` updates an existing key in place (keys are unique in the
association list) and appends a new key at the end. -/
def bumpBucket (bs : List (Int × Bucket)) (w : Int) (act : ActK) : List (Int × Bucket) :=
  match bs with
  | [] => [(w, bumpB act {})]
  | p :: rest => if p.1 = w then (p.1, bumpB act p.2) :: rest else p :: bumpBucket rest w act

/-- `computeBuckets`: undated nodes are skipped; a dated node lands in week
`max(0, floor((date - minDate) / weekMs))`. -/
def computeBuckets (ns : List PNode) (minDate : Int) : List (Int × Bucket) :=
  ns.foldl
    (fun bs n =>
      match n.date with
      | none => bs
      | some d => bumpBucket bs (max 0 (Int.fdiv (d - minDate) weekMs)) n.action)
    []

structure Interlacing where
  activeBuckets : Nat
  overlapBuckets : Nat
  interlacingIndex : ℚ
  overlapIntensity : ℚ
deriving DecidableEq

/-- `computeInterlacing`. -/
def computeInterlacing (bs : List (Int × Bucket)) : Interlacing :=
  let active := (bs.map Prod.snd).filter (fun b => decide (0 < b.total))
  let overlap := active.filter (fun b => decide (0 < b.exploring ∧ 0 < b.making))
  let interlacingIndex : ℚ :=
    if active.length = 0 then 0 else ((overlap.length : ℚ) / active.length) * 100
  let intensity : ℚ :=
    if overlap.length = 0 then 0
    else ((overlap.map (fun b => ((min b.exploring b.making : ℚ)) / (max b.exploring b.making))).sum
          / overlap.length) * 100
  { activeBuckets := active.length
    overlapBuckets := overlap.length
    interlacingIndex := interlacingIndex
    overlapIntensity := intensity }

/-! ## Tarjan's strongly connected components (`computeScc`) -/

structure TarjanSt where
  index : Nat
  stack : List String
  onStack : List String
  idxMap : List (String × Nat)
  lowMap : List (String × Nat)
  comps : List (List String)
deriving DecidableEq

/-- `Map.get`: the association lists are extended by shadowing, so the
first binding is the current one. -/
def mget (m : List (String × Nat)) (k : String) : Option Nat := m.lookup k

/-- `Map.set` by shadowing. -/
def mset (m : List (String × Nat)) (k : String) (v : Nat) : List (String × Nat) :=
  (k, v) :: m

/-- The component-popping loop at the end of `strongConnect`: pop the
stack down to `v` (inclusive), removing each popped vertex from the
on-stack set and collecting the component. -/
def popComp (v : String) : List String → List String → List String →
    List String × List String × List String
  | [], onS, comp => ([], onS, comp)
  | w :: rest, onS, comp =>
    if w = v then (rest, onS.erase w, comp ++ [w])
    else popComp v rest (onS.erase w) (comp ++ [w])

/-- `strongConnect` with explicit fuel bounding the recursion depth; the
callers pass more fuel than there are vertices, so the fuel never runs
out (each nested call visits a previously unindexed vertex). -/
def strongConnect (adj : String → List String) : Nat → String → TarjanSt → TarjanSt
  | 0, _, st => st
  | fuel + 1, v, st =>
    let st := { st with
      idxMap := mset st.idxMap v st.index
      lowMap := mset st.lowMap v st.index
      index := st.index + 1
      stack := v :: st.stack
      onStack := v :: st.onStack }
    let st := (adj v).foldl
      (fun acc w =>
        if (mget acc.idxMap w).isNone then
          let acc := strongConnect adj fuel w acc
          { acc with
            lowMap := mset acc.lowMap v
              (min ((mget acc.lowMap v).getD 0) ((mget acc.lowMap w).getD 0)) }
        else if w ∈ acc.onStack then
          { acc with
            lowMap := mset acc.lowMap v
              (min ((mget acc.lowMap v).getD 0) ((mget acc.idxMap w).getD 0)) }
        else acc)
      st
    if mget st.lowMap v = mget st.idxMap v then
      let popped := popComp v st.stack st.onStack []
      { st with stack := popped.1, onStack := popped.2.1, comps := st.comps ++ [popped.2.2] }
    else st

structure SccRes where
  sccCount : Nat
  cyclicNodes : List String
  largestScc : Nat
deriving DecidableEq

/-- The adjacency map of `computeScc`: successors of `v` in edge order
(dangling or self-loop entries are skipped, as in the source's redundant
re-check). -/
def sccAdj (ns : List PNode) (es : List RawEdge) (v : String) : List String :=
  (es.filter (fun e => e.s == v && hasId ns e.s && hasId ns e.t && !(e.s == e.t))).map (·.t)

/-- `computeScc`: run Tarjan from every unindexed vertex in load order;
components of size at least 2 are the cyclic ones. -/
def computeScc (ns : List PNode) (es : List RawEdge) : SccRes :=
  let ids := ns.map (·.id)
  let stF := ids.foldl
    (fun st id =>
      if (mget st.idxMap id).isNone then strongConnect (sccAdj ns es) (ids.length + 1) id st
      else st)
    ⟨0, [], [], [], [], []⟩
  let cyclic := stF.comps.filter (fun c => decide (1 < c.length))
  { sccCount := cyclic.length
    cyclicNodes := jsSetOfList cyclic.flatten
    largestScc := cyclic.foldl (fun m c => max m c.length) 0 }

/-! ### Specification-side graph notions for the SCC verification -/

/-- One directed step of the adjacency function. -/
def stepOf (adj : String → List String) (a b : String) : Prop := b ∈ adj a

/-- Reachability: the reflexive-transitive closure of `stepOf`. -/
def reachOf (adj : String → List String) : String → String → Prop :=
  Relation.ReflTransGen (stepOf adj)

/-- A vertex is visited once it carries an index. -/
def visitedIn (st : TarjanSt) (v : String) : Prop := (mget st.idxMap v).isSome = true

/-- A vertex is assigned once it belongs to an emitted component. -/
def assignedIn (st : TarjanSt) (v : String) : Prop := v ∈ st.comps.flatten

/-- The number of not-yet-visited vertices of the universe `U`. -/
def countU (U : List String) (st : TarjanSt) : Nat :=
  (U.toFinset.filter (fun v => (mget st.idxMap v).isSome = false)).card

-- The union of the vertex sets of the nontrivial strongly connected
-- components of the adjacency graph, defined mathematically: vertices with
-- a distinct mutually reachable partner.
open Classical in
noncomputable def cyclicIdSet (ns : List PNode) (es : List RawEdge) : Finset String :=
  (ns.map PNode.id).toFinset.filter (fun v =>
    ∃ u, u ≠ v ∧ reachOf (sccAdj ns es) v u ∧ reachOf (sccAdj ns es) u v)

/-- The state invariant of Tarjan's algorithm, between calls. -/
structure TarjanWF (adj : String → List String) (U : List String) (st : TarjanSt) : Prop where
  onstack_eq : st.onStack = st.stack
  stack_nodup : st.stack.Nodup
  stack_visited : ∀ v ∈ st.stack, (mget st.idxMap v).isSome = true
  stack_not_assigned : ∀ v ∈ st.stack, v ∉ st.comps.flatten
  visited_cases : ∀ v, (mget st.idxMap v).isSome = true → v ∈ st.stack ∨ v ∈ st.comps.flatten
  assigned_visited : ∀ v ∈ st.comps.flatten, (mget st.idxMap v).isSome = true
  num_lt_index : ∀ v n, mget st.idxMap v = some n → n < st.index
  num_inj : ∀ v w n, mget st.idxMap v = some n → mget st.idxMap w = some n → v = w
  stack_reach : ∀ x ∈ st.stack, ∀ y ∈ st.stack, ∀ nx ny, mget st.idxMap x = some nx →
    mget st.idxMap y = some ny → nx ≤ ny → reachOf adj x y
  low_wit : ∀ x ∈ st.stack, ∃ nx lx y, mget st.idxMap x = some nx ∧
    mget st.lowMap x = some lx ∧ lx ≤ nx ∧ y ∈ st.stack ∧ mget st.idxMap y = some lx ∧
    reachOf adj x y
  comps_ok : ∀ c ∈ st.comps, c.Nodup ∧ (∀ x ∈ c, ∀ y ∈ c, reachOf adj x y) ∧
    (∀ x ∈ c, ∀ y, reachOf adj x y → reachOf adj y x → y ∈ c)
  visited_mem : ∀ v, (mget st.idxMap v).isSome = true → v ∈ U

/-- The postcondition of a completed `strongConnect` call on a fresh
vertex `v`, relating the entry state `s0` to the return state `s1`. -/
structure SCPost (adj : String → List String) (U : List String) (v : String)
    (s0 s1 : TarjanSt) : Prop where
  wf : TarjanWF adj U s1
  num_mono : ∀ x n, mget s0.idxMap x = some n → mget s1.idxMap x = some n
  comps_mono : ∃ newC, s1.comps = s0.comps ++ newC
  num_v : mget s1.idxMap v = some s0.index
  index_mono : s0.index < s1.index
  num_new_ge : ∀ x n, (mget s0.idxMap x).isSome = false → mget s1.idxMap x = some n →
    s0.index ≤ n
  low_frozen : ∀ x, (mget s0.idxMap x).isSome = true → mget s1.lowMap x = mget s0.lowMap x
  reach_new : ∀ x, (mget s0.idxMap x).isSome = false → (mget s1.idxMap x).isSome = true →
    reachOf adj v x
  stack_shape : (s1.stack = s0.stack ∧ v ∈ s1.comps.flatten ∧
      mget s1.lowMap v = mget s1.idxMap v) ∨
    (∃ Δ, s1.stack = Δ ++ v :: s0.stack ∧
      (∀ x ∈ Δ, (mget s0.idxMap x).isSome = false) ∧
      (∀ x, (x ∈ Δ ∨ x = v) → ∃ lx nx, mget s1.lowMap x = some lx ∧
        mget s1.idxMap x = some nx ∧ lx < nx))
  low_le : ∃ lv, mget s1.lowMap v = some lv ∧ lv ≤ s0.index
  subtree_low : ∀ x, (mget s0.idxMap x).isSome = false → x ∈ s1.stack →
    ∃ lx lv, mget s1.lowMap x = some lx ∧ mget s1.lowMap v = some lv ∧ lv ≤ lx
  escape : ∀ x, (mget s0.idxMap x).isSome = false → (mget s1.idxMap x).isSome = true →
    ∀ y ∈ adj x, (mget s1.idxMap y).isSome = true ∧
      (y ∈ s1.comps.flatten ∨ ∃ ny lv, mget s1.idxMap y = some ny ∧
        mget s1.lowMap v = some lv ∧ lv ≤ ny)
  count_lt : countU U s1 < countU U s0

/-- The invariant of the successor loop inside the call on `v` (entry
state `s0`, current state `s`). -/
structure SCLoopInv (adj : String → List String) (U : List String) (v : String)
    (s0 s : TarjanSt) : Prop where
  wf : TarjanWF adj U s
  shape : ∃ Δ, s.stack = Δ ++ v :: s0.stack ∧
    (∀ x ∈ Δ, (mget s0.idxMap x).isSome = false) ∧
    (∀ x ∈ Δ, ∃ lx nx, mget s.lowMap x = some lx ∧ mget s.idxMap x = some nx ∧ lx < nx)
  num_v : mget s.idxMap v = some s0.index
  num_mono : ∀ x n, mget s0.idxMap x = some n → mget s.idxMap x = some n
  comps_mono : ∃ newC, s.comps = s0.comps ++ newC
  index_mono : s0.index < s.index
  num_new_ge : ∀ x n, (mget s0.idxMap x).isSome = false → mget s.idxMap x = some n →
    s0.index ≤ n
  low_frozen : ∀ x, (mget s0.idxMap x).isSome = true → mget s.lowMap x = mget s0.lowMap x
  reach_new : ∀ x, (mget s0.idxMap x).isSome = false → (mget s.idxMap x).isSome = true →
    reachOf adj v x
  low_v : ∃ lv, mget s.lowMap v = some lv ∧ lv ≤ s0.index
  subtree_low : ∀ x, (mget s0.idxMap x).isSome = false → x ∈ s.stack →
    ∃ lx lv, mget s.lowMap x = some lx ∧ mget s.lowMap v = some lv ∧ lv ≤ lx
  escape : ∀ x, (mget s0.idxMap x).isSome = false → (mget s.idxMap x).isSome = true →
    x ≠ v → ∀ y ∈ adj x, (mget s.idxMap y).isSome = true ∧
      (y ∈ s.comps.flatten ∨ ∃ ny lv, mget s.idxMap y = some ny ∧
        mget s.lowMap v = some lv ∧ lv ≤ ny)
  count_lt : countU U s < countU U s0

/-- The facts a loop segment preserves, used to transport bounds on
already-processed successors. -/
structure SCEvolve (v : String) (s s' : TarjanSt) : Prop where
  num_pres : ∀ x n, mget s.idxMap x = some n → mget s'.idxMap x = some n
  comps_ext : ∃ newC, s'.comps = s.comps ++ newC
  low_v_le : ∀ lv, mget s.lowMap v = some lv →
    ∃ lv', mget s'.lowMap v = some lv' ∧ lv' ≤ lv

/-- The bound recorded for a processed successor `y` of `v`. -/
def EdgeBound (v : String) (s : TarjanSt) (y : String) : Prop :=
  (mget s.idxMap y).isSome = true ∧
    (y ∈ s.comps.flatten ∨ ∃ ny lv, mget s.idxMap y = some ny ∧
      mget s.lowMap v = some lv ∧ lv ≤ ny)

/-- The entry step of `strongConnect`: index the vertex and push it. -/
def pushSt (v : String) (st : TarjanSt) : TarjanSt :=
  { st with
    idxMap := mset st.idxMap v st.index
    lowMap := mset st.lowMap v st.index
    index := st.index + 1
    stack := v :: st.stack
    onStack := v :: st.onStack }

/-- The body of the successor loop of `strongConnect` on `v`. -/
def sccStep (adj : String → List String) (fuel : Nat) (v : String)
    (acc : TarjanSt) (w : String) : TarjanSt :=
  if (mget acc.idxMap w).isNone then
    { strongConnect adj fuel w acc with
      lowMap := mset (strongConnect adj fuel w acc).lowMap v
        (min ((mget (strongConnect adj fuel w acc).lowMap v).getD 0)
          ((mget (strongConnect adj fuel w acc).lowMap w).getD 0)) }
  else if w ∈ acc.onStack then
    { acc with
      lowMap := mset acc.lowMap v
        (min ((mget acc.lowMap v).getD 0) ((mget acc.idxMap w).getD 0)) }
  else acc

/-- The root-popping step at the end of `strongConnect`. -/
def popSt (v : String) (st : TarjanSt) : TarjanSt :=
  let popped := popComp v st.stack st.onStack []
  { st with stack := popped.1, onStack := popped.2.1, comps := st.comps ++ [popped.2.2] }

/-- The final state of the `computeScc` driver loop. -/
def sccFinal (ns : List PNode) (es : List RawEdge) : TarjanSt :=
  (ns.map PNode.id).foldl
    (fun st id =>
      if (mget st.idxMap id).isNone then
        strongConnect (sccAdj ns es) ((ns.map PNode.id).length + 1) id st
      else st)
    ⟨0, [], [], [], [], []⟩

/-! ## The per-project composer (`computeMetricsForProject`) -/

structure Opts where
  hubThreshold : Int := 4
  maxWeeks : Int := 200
deriving DecidableEq

structure ProjectMetrics where
  project : String
  nodes : Nat
  edges : Nat
  exploring : Nat
  making : Nat
  other : Nat
  sources : Nat
  sinks : Nat
  interlacingIndex : ℚ
  overlapIntensity : ℚ
  activeBuckets : Nat
  overlapBuckets : Nat
  sccCount : Nat
  largestScc : Nat
  cycleParticipation : ℚ
  conversionRate : ℚ
  feedbackRatio : ℚ
  leadtimeMedianDays : Option ℚ
  eToMEdges : Nat
  mToEEdges : Nat
  interlacingEdges : Nat
  crossMacroShare : ℚ
  macroEdgeCoverage : ℚ
  crossInterlacingShare : ℚ
  interlacingMacroCoverage : ℚ
  multiAreaShare : ℚ
  avgAreas : ℚ
  convergent : Nat
  divergent : Nat
  reciprocityPairs : Nat
  density : ℚ
  temporalBackShare : ℚ
  minDate : String
  maxDate : String
  spanDays : Option ℚ
  typeCounts : List (String × Nat)
  areaCounts : List (String × Nat)
  macroCounts : List (MacroK × Nat)
deriving DecidableEq

def macroOkB (m : MacroK) : Bool :=
  decide (m = .speculative) || decide (m = .communication) || decide (m = .interaction)

/-- `nodes[idToIndex.get(e.s)]`, `nodes[idToIndex.get(e.t)]` for an edge;
`none` mirrors the `if (!a || !b) continue` guard. -/
def edgeEnds (ns : List PNode) (e : RawEdge) : Option (PNode × PNode) :=
  match nodeById ns e.s, nodeById ns e.t with
  | some a, some b => some (a, b)
  | _, _ => none

def isEtoM (p : PNode × PNode) : Bool :=
  decide (p.1.action = .exploring) && decide (p.2.action = .making)

def isMtoE (p : PNode × PNode) : Bool :=
  decide (p.1.action = .making) && decide (p.2.action = .exploring)

/-- The reciprocity key `  s + "→" + t  ` as a character list. -/
def recipKey (e : RawEdge) : List Char := e.s.data ++ '→' :: e.t.data

/-- `key.split("→")` destructured to its first two fields. -/
def splitArrow (k : List Char) : List Char × List Char :=
  match k.splitOn '→' with
  | f :: t :: _ => (f, t)
  | [f] => (f, [])
  | [] => ([], [])

/-- The reciprocity count: over the deduplicated key set, count the keys
whose reversed key is also present and whose first field is
string-smaller than the second. -/
def reciprocalPairsOf (es : List RawEdge) : Nat :=
  (jsSetOfList (es.map recipKey)).countP (fun k =>
    decide (((splitArrow k).2 ++ '→' :: (splitArrow k).1) ∈ jsSetOfList (es.map recipKey)) &&
    jsStrLt (splitArrow k).1 (splitArrow k).2)

/-- One edge's contribution to `eToMLatencyDays`: the day difference of an
E→M edge with both endpoints dated, kept only when finite (always, in
the rational model) and non-negative. -/
def leadSample (p : PNode × PNode) : Option ℚ :=
  if isEtoM p then
    match p.1.date, p.2.date with
    | some da, some db =>
      if 0 ≤ ((db - da : Int) : ℚ) / 86400000 then some (((db - da : Int) : ℚ) / 86400000)
      else none
    | _, _ => none
  else none

/-- The `eToMLatencyDays` accumulation. -/
def eToMLatencyOf (ends : List (PNode × PNode)) : List ℚ :=
  ends.filterMap leadSample

/-- Stable insertion (after existing entries of equal count) used to model
the stable `sort((a, b) => b[1] - a[1])`. -/
def insertDescBy {α : Type} (cnt : α → Nat) (x : α) : List α → List α
  | [] => [x]
  | y :: ys => if cnt y < cnt x then x :: y :: ys else y :: insertDescBy cnt x ys

def sortCountsDesc {α : Type} (cnt : α → Nat) (l : List α) : List α :=
  l.foldl (fun acc x => insertDescBy cnt x acc) []

/-- A `Map` counting occurrences, listed in insertion order. -/
def countsOf {α : Type} [DecidableEq α] (l : List α) : List (α × Nat) :=
  (jsSetOfList l).map (fun k => (k, l.countP (fun x => decide (x = k))))

/-- The normalized node list of a document (`rawNodes.map(...)`). -/
def pNodes (doc : RawDoc) (tz : Int) : List PNode :=
  (doc.nodes.getD []).map (normalizeNode tz)

/-- The valid edge list of a document. -/
def pEdges (doc : RawDoc) (tz : Int) : List RawEdge :=
  validEdges (pNodes doc tz) (doc.edges.getD [])

/-- Endpoint pairs of the valid edges, in edge order. -/
def endsOf (doc : RawDoc) (tz : Int) : List (PNode × PNode) :=
  (pEdges doc tz).filterMap (edgeEnds (pNodes doc tz))

def eToMOf (doc : RawDoc) (tz : Int) : Nat := ((endsOf doc tz).filter isEtoM).length

def mToEOf (doc : RawDoc) (tz : Int) : Nat := ((endsOf doc tz).filter isMtoE).length

def latencyOf (doc : RawDoc) (tz : Int) : List ℚ := eToMLatencyOf (endsOf doc tz)

/-- The `exploringWithMakingOut` set: distinct source ids of E→M edges. -/
def ewmOutOf (doc : RawDoc) (tz : Int) : List String :=
  jsSetOfList (((endsOf doc tz).filter isEtoM).map (fun p => p.1.id))

/-- E→M / M→E edges (`interlacingEdges`). -/
def interEndsOf (doc : RawDoc) (tz : Int) : List (PNode × PNode) :=
  (endsOf doc tz).filter (fun p => isEtoM p || isMtoE p)

/-- The dates of all dated nodes, in load order (any action). -/
def datedOf (doc : RawDoc) (tz : Int) : List Int :=
  (pNodes doc tz).filterMap (·.date)

/-- `minDate` of the composer: minimum over all dated nodes. -/
def minDateOf (doc : RawDoc) (tz : Int) : Option Int :=
  match datedOf doc tz with
  | [] => none
  | d :: ds => some (ds.foldl min d)

/-- `maxDate` of the composer. -/
def maxDateOf (doc : RawDoc) (tz : Int) : Option Int :=
  match datedOf doc tz with
  | [] => none
  | d :: ds => some (ds.foldl max d)

/-- The composer's week buckets: non-`other` nodes bucketed against the
minimum over all dated nodes. -/
def bucketsOf (doc : RawDoc) (tz : Int) : List (Int × Bucket) :=
  match minDateOf doc tz with
  | none => []
  | some mn => computeBuckets ((pNodes doc tz).filter (fun n => !decide (n.action = .other))) mn

/-- Edges with both endpoints dated. -/
def temporalPairsOf (doc : RawDoc) (tz : Int) : List (PNode × PNode) :=
  (endsOf doc tz).filter (fun p => p.1.date.isSome && p.2.date.isSome)

def pctQ (num den : Nat) : ℚ := if den = 0 then 0 else ((num : ℚ) / den) * 100

def countVia {α : Type} (l : List α) (p : α → Bool) : Nat := (l.filter p).length

def computeMetricsForProject (projectName : String) (doc : RawDoc) (opts : Opts)
    (tz : Int) : ProjectMetrics :=
  let nodes := pNodes doc tz
  let edges := pEdges doc tz
  let nCount := nodes.length
  let eCount := edges.length
  let ends := endsOf doc tz
  let macroConsidered := ends.filter (fun p => macroOkB p.1.macroCat && macroOkB p.2.macroCat)
  let interEnds := interEndsOf doc tz
  let interMacro := interEnds.filter (fun p => macroOkB p.1.macroCat && macroOkB p.2.macroCat)
  let hubT : Int := max 1 (if opts.hubThreshold = 0 then 4 else opts.hubThreshold)
  let interlacing := computeInterlacing (bucketsOf doc tz)
  let scc := computeScc nodes edges
  { project := projectName
    nodes := nCount
    edges := eCount
    exploring := countVia nodes (fun n => decide (n.action = .exploring))
    making := countVia nodes (fun n => decide (n.action = .making))
    other := countVia nodes (fun n => decide (n.action = .other))
    sources := countVia nodes (fun n => decide (inDeg edges n.id = 0))
    sinks := countVia nodes (fun n => decide (outDeg edges n.id = 0))
    interlacingIndex := interlacing.interlacingIndex
    overlapIntensity := interlacing.overlapIntensity
    activeBuckets := interlacing.activeBuckets
    overlapBuckets := interlacing.overlapBuckets
    sccCount := scc.sccCount
    largestScc := scc.largestScc
    cycleParticipation := pctQ scc.cyclicNodes.length nCount
    conversionRate := pctQ (ewmOutOf doc tz).length (countVia nodes (fun n => decide (n.action = .exploring)))
    feedbackRatio := pctQ (mToEOf doc tz) (eToMOf doc tz)
    leadtimeMedianDays := median (latencyOf doc tz)
    eToMEdges := eToMOf doc tz
    mToEEdges := mToEOf doc tz
    interlacingEdges := interEnds.length
    crossMacroShare := pctQ (countVia macroConsidered (fun p => !decide (p.1.macroCat = p.2.macroCat))) macroConsidered.length
    macroEdgeCoverage := pctQ macroConsidered.length eCount
    crossInterlacingShare := pctQ (countVia interMacro (fun p => !decide (p.1.macroCat = p.2.macroCat))) interMacro.length
    interlacingMacroCoverage := pctQ interMacro.length interEnds.length
    multiAreaShare := pctQ (countVia nodes (fun n => decide (1 < n.areas.length))) nCount
    avgAreas := if nCount = 0 then 0 else ((nodes.map (fun n => (n.areas.length : ℚ))).sum) / nCount
    convergent := countVia nodes (fun n => decide (hubT ≤ (inDeg edges n.id : Int)))
    divergent := countVia nodes (fun n => decide (hubT ≤ (outDeg edges n.id : Int)))
    reciprocityPairs := reciprocalPairsOf edges
    density := (if 1 < nCount then (eCount : ℚ) / ((nCount : ℚ) * ((nCount : ℚ) - 1)) else 0) * 100
    temporalBackShare :=
      pctQ (countVia (temporalPairsOf doc tz) (fun p => decide (p.2.date.getD 0 < p.1.date.getD 0)))
        (temporalPairsOf doc tz).length
    minDate := match minDateOf doc tz with | none => "" | some mn => isoOfMs mn
    maxDate := match maxDateOf doc tz with | none => "" | some mx => isoOfMs mx
    spanDays := match minDateOf doc tz, maxDateOf doc tz with
      | some mn, some mx => some (((mx - mn : Int) : ℚ) / 86400000)
      | _, _ => none
    typeCounts := sortCountsDesc Prod.snd (countsOf (nodes.map (fun n =>
      let k := String.mk (trimChars n.type.data)
      if k = "" then "(none)" else k)))
    areaCounts := sortCountsDesc Prod.snd (countsOf ((nodes.map (·.areas)).flatten))
    macroCounts := sortCountsDesc Prod.snd (countsOf (nodes.map (·.macroCat))) }

/-! ## CSV projection, report cell, batch loop, cohort aggregation -/

/-- A CSV cell before final quoting: a string, a (finite) number, or the
empty cell produced for `null` (and non-finite numbers, which the
rational model does not produce). -/
inductive CsvVal : Type
  | str (s : String)
  | num (q : ℚ)
  | empty
deriving DecidableEq

def csvOptCell (v : Option ℚ) : CsvVal :=
  match v with
  | none => .empty
  | some q => .num q

/-- The row of `toCsv` for one record, in the fixed header order. -/
def toCsvRow (m : ProjectMetrics) : List CsvVal :=
  [.str m.project, .num m.nodes, .num m.edges, .num m.exploring, .num m.making,
   .num m.interlacingIndex, .num m.overlapIntensity, .num m.cycleParticipation,
   .num m.crossInterlacingShare, .num m.conversionRate, .num m.feedbackRatio,
   csvOptCell m.leadtimeMedianDays, .num m.crossMacroShare, .num m.multiAreaShare,
   .num m.temporalBackShare, .num m.sources, .num m.sinks]

/-- The report's lead-time cell: `m.leadtimeMedianDays == null ? "-" : fmt(...)`;
the numeric rendering itself is not at issue in any claim. -/
def reportLeadCell (m : ProjectMetrics) : String :=
  match m.leadtimeMedianDays with
  | none => "-"
  | some q => toString q

/-- The batch loop of `main`: each project file is `JSON.parse`d (no
`try`/`catch` anywhere on the path to the top-level `main()` call) and
then analyzed.  The input models each project as its name together with
the parse outcome (`none` when `JSON.parse` throws); a thrown parse error
aborts the whole run, which the embedding returns as `Except.error`. -/
def runBatch (opts : Opts) (tz : Int) :
    List (String × Option RawDoc) → Except String (List ProjectMetrics)
  | [] => .ok []
  | (_, none) :: _ => .error "SyntaxError: unexpected token in JSON"
  | (name, some doc) :: rest =>
    (runBatch opts tz rest).map (fun ms => computeMetricsForProject name doc opts tz :: ms)

structure AggEntry where
  mean : Option ℚ
  median : Option ℚ
  min : Option ℚ
  max : Option ℚ
deriving DecidableEq

/-- One aggregator entry over the finite values of a metric. -/
def aggFor (vals : List ℚ) : AggEntry :=
  { mean := meanQ vals
    median := median vals
    min := (minmaxQ vals).1
    max := (minmaxQ vals).2 }

/-- The cohort aggregate for the fixed `numericKeys` list:
`metrics.map(m => m[key]).filter(Number.isFinite)` keeps every stored
rational and drops exactly the `null` lead-time entries, which the
embedding expresses with `filterMap` through an `Option`-valued getter. -/
structure CohortAgg where
  interlacingIndex : AggEntry
  overlapIntensity : AggEntry
  cycleParticipation : AggEntry
  crossInterlacingShare : AggEntry
  conversionRate : AggEntry
  feedbackRatio : AggEntry
  leadtimeMedianDays : AggEntry
  crossMacroShare : AggEntry
  multiAreaShare : AggEntry
  temporalBackShare : AggEntry
deriving DecidableEq

def cohortAgg (ms : List ProjectMetrics) : CohortAgg :=
  { interlacingIndex := aggFor (ms.filterMap (fun m => some m.interlacingIndex))
    overlapIntensity := aggFor (ms.filterMap (fun m => some m.overlapIntensity))
    cycleParticipation := aggFor (ms.filterMap (fun m => some m.cycleParticipation))
    crossInterlacingShare := aggFor (ms.filterMap (fun m => some m.crossInterlacingShare))
    conversionRate := aggFor (ms.filterMap (fun m => some m.conversionRate))
    feedbackRatio := aggFor (ms.filterMap (fun m => some m.feedbackRatio))
    leadtimeMedianDays := aggFor (ms.filterMap (·.leadtimeMedianDays))
    crossMacroShare := aggFor (ms.filterMap (fun m => some m.crossMacroShare))
    multiAreaShare := aggFor (ms.filterMap (fun m => some m.multiAreaShare))
    temporalBackShare := aggFor (ms.filterMap (fun m => some m.temporalBackShare)) }

/-! ## Per-project timelines (`computePerProjectTimelines`)

This pass re-reads each document and buckets the dated
exploring/making nodes against the minimum date over those same nodes
(unlike the composer's buckets).  `min.setHours(0, 0, 0, 0)` is the
identity in the constant-offset model, where every parsed date is
already a local midnight. -/

/-- `tl[w].ex += 1` / `tl[w].mk += 1` with the out-of-range guard
(`w >= tl.length` is skipped). -/
def bumpTl : List (Nat × Nat) → Nat → Bool → Bool → List (Nat × Nat)
  | [], _, _, _ => []
  | p :: rest, 0, ex, mk =>
    (p.1 + (if ex then 1 else 0), p.2 + (if mk then 1 else 0)) :: rest
  | p :: rest, w + 1, ex, mk => p :: bumpTl rest w ex mk

/-- The dated exploring/making entries (action string, epoch ms) of the
timelines pass, in load order. -/
def emNodesOf (doc : RawDoc) (tz : Int) : List (String × Int) :=
  (doc.nodes.getD []).filterMap (fun n =>
    let action := String.mk (trimChars (lowerChars n.action.data))
    match (parseDate n.date).map (epochMsOfDay · tz) with
    | some d => if action == "exploring" || action == "making" then some (action, d) else none
    | none => none)

/-- The restricted minimum of the timelines pass. -/
def emMinOf (doc : RawDoc) (tz : Int) : Option Int :=
  match (emNodesOf doc tz).map Prod.snd with
  | [] => none
  | d :: ds => some (ds.foldl min d)

/-- The effective timeline week cap
(`Math.max(4, Number(opts.maxWeeks) || 200)`). -/
def maxWeeksN (opts : Opts) : Nat :=
  (max 4 (if opts.maxWeeks = 0 then 200 else opts.maxWeeks)).toNat

/-- `computePerProjectTimelines` for one document: `none` when there is no
dated exploring/making node (`if (!em.length) continue`). -/
def timelineOf (doc : RawDoc) (opts : Opts) (tz : Int) : Option (List (Nat × Nat)) :=
  match emMinOf doc tz with
  | none => none
  | some mn =>
    some ((emNodesOf doc tz).foldl
      (fun tl p =>
        bumpTl tl (max 0 (Int.fdiv (p.2 - mn) weekMs)).toNat
          (p.1 == "exploring") (p.1 == "making"))
      (List.replicate (maxWeeksN opts) (0, 0)))

/-! ## Concrete scenario documents -/

/-- Scenario A of the spec: three nodes alternating exploring/making with
weekly dates, edges `N1→N2` and `N2→N3`. -/
def docA : RawDoc :=
  { nodes := some
      [{ id := "N1", action := "exploring", date := "2024-01-01" },
       { id := "N2", action := "making", date := "2024-01-08" },
       { id := "N3", action := "exploring", date := "2024-01-15" }]
    edges := some [{ s := "N1", t := "N2" }, { s := "N2", t := "N3" }] }

/-- Scenario B of the spec: two nodes with a mutual edge pair. -/
def docB : RawDoc :=
  { nodes := some [{ id := "A" }, { id := "B" }]
    edges := some [{ s := "A", t := "B" }, { s := "B", t := "A" }] }

/-- A dated `other`-action node earlier than the only dated exploring
node: the composer's buckets use the earlier date as origin. -/
def docC2 : RawDoc :=
  { nodes := some
      [{ id := "X", action := "note", date := "2024-01-01" },
       { id := "Y", action := "exploring", date := "2024-01-15" }]
    edges := some [] }

/-- Two nodes with the same valid edge listed three times. -/
def docC9 : RawDoc :=
  { nodes := some [{ id := "X" }, { id := "Y" }]
    edges := some [{ s := "X", t := "Y" }, { s := "X", t := "Y" }, { s := "X", t := "Y" }] }

/-- A document with no dated node at all. -/
def docNoDates : RawDoc :=
  { nodes := some [{ id := "A", action := "exploring" }], edges := some [] }

/-- A project with one M→E edge and no E→M edge: `feedbackRatio`
degrades to `0` although its underlying data is missing. -/
def docNoEM : RawDoc :=
  { nodes := some
      [{ id := "A", action := "making" }, { id := "B", action := "exploring" }]
    edges := some [{ s := "A", t := "B" }] }

/-- A project with one E→M and one M→E edge: `feedbackRatio = 100`. -/
def docFull : RawDoc :=
  { nodes := some
      [{ id := "A", action := "exploring" }, { id := "B", action := "making" }]
    edges := some [{ s := "A", t := "B" }, { s := "B", t := "A" }] }

/-- Edges whose endpoint ids contain the reciprocity separator `→`:
the edge list `[a→b ⟶ c, b ⟶ a]` has no mutual pair, but the string
key of the first edge splits as `a, b`. -/
def arrowEdges : List RawEdge :=
  [{ s := "a→b", t := "c" }, { s := "b", t := "a" }]

/-- Node set making `arrowEdges` valid. -/
def arrowNodes : List PNode :=
  [{ id := "a→b", action := .other, date := none, areas := [], macroCat := .unknown, type := "" },
   { id := "c", action := .other, date := none, areas := [], macroCat := .unknown, type := "" },
   { id := "a", action := .other, date := none, areas := [], macroCat := .unknown, type := "" },
   { id := "b", action := .other, date := none, areas := [], macroCat := .unknown, type := "" }]

/-! ## Claim-side auxiliary definitions -/

/-- An E→M edge with both endpoints dated and a non-negative day
difference: exactly the edges contributing a lead-time sample. -/
def hasLeadData (p : PNode × PNode) : Bool :=
  isEtoM p && p.1.date.isSome && p.2.date.isSome &&
    decide (p.1.date.getD 0 ≤ p.2.date.getD 0)

/-- The exploring count recorded for week `w` (0 when the week has no
bucket). -/
def bucketExp (bs : List (Int × Bucket)) (w : Int) : Nat :=
  match bs.lookup w with
  | some b => b.exploring
  | none => 0

/-- The making count recorded for week `w`. -/
def bucketMk (bs : List (Int × Bucket)) (w : Int) : Nat :=
  match bs.lookup w with
  | some b => b.making
  | none => 0

/-- The week formula of the script relative to an origin `mn`. -/
def weekFor (mn d : Int) : Int := max 0 (Int.fdiv (d - mn) weekMs)

/-- The ordered endpoint pairs of an edge list. -/
def pairsOf (es : List RawEdge) : List (String × String) :=
  es.map (fun e => (e.s, e.t))

/-- The reciprocity key of an ordered pair. -/
def keyOfPair (p : String × String) : List Char := p.1.data ++ '→' :: p.2.data

/-- The set of unordered reciprocal pairs of an edge list, represented by
their string-order-canonical orientation: pairs `(a, b)` with `a` below
`b` in the string order such that both `a→b` and `b→a` occur. -/
def recipPairSet (es : List RawEdge) : Finset (String × String) :=
  (pairsOf es).toFinset.filter
    (fun p => jsStrLt p.1.data p.2.data ∧ (p.2, p.1) ∈ (pairsOf es).toFinset)

/-- Arrow-freeness of the endpoint ids of an edge list: the reciprocity
key separator does not occur in any id. -/
def ArrowFree (es : List RawEdge) : Prop :=
  ∀ e ∈ es, '→' ∉ e.s.data ∧ '→' ∉ e.t.data

/-! ## Shared lemmas -/

theorem mem_foldl_setIns {α : Type} [DecidableEq α] (l acc : List α) (x : α) :
    x ∈ l.foldl (fun acc a => if a ∈ acc then acc else acc ++ [a]) acc ↔
      x ∈ acc ∨ x ∈ l := by
  induction l generalizing acc with
  | nil => simp
  | cons a as ih =>
    simp only [List.foldl_cons]
    rw [ih]
    by_cases h : a ∈ acc
    · simp only [if_pos h, List.mem_cons]
      constructor
      · rintro (hx | hx)
        · exact Or.inl hx
        · exact Or.inr (Or.inr hx)
      · rintro (hx | hx | hx)
        · exact Or.inl hx
        · exact Or.inl (hx ▸ h)
        · exact Or.inr hx
    · simp only [if_neg h, List.mem_append, List.mem_singleton, List.mem_cons]
      tauto

theorem nodup_foldl_setIns {α : Type} [DecidableEq α] (l acc : List α)
    (h : acc.Nodup) :
    (l.foldl (fun acc a => if a ∈ acc then acc else acc ++ [a]) acc).Nodup := by
  induction l generalizing acc with
  | nil => simpa
  | cons a as ih =>
    simp only [List.foldl_cons]
    by_cases ha : a ∈ acc
    · rw [if_pos ha]; exact ih acc h
    · rw [if_neg ha]
      refine ih _ ?_
      rw [List.nodup_append]
      exact ⟨h, List.nodup_singleton a, by simpa using ha⟩

theorem mem_jsSetOfList {α : Type} [DecidableEq α] (l : List α) (x : α) :
    x ∈ jsSetOfList l ↔ x ∈ l := by
  unfold jsSetOfList
  simpa using mem_foldl_setIns l [] x

theorem nodup_jsSetOfList {α : Type} [DecidableEq α] (l : List α) :
    (jsSetOfList l).Nodup :=
  nodup_foldl_setIns l [] List.nodup_nil

theorem length_insertSortedQ (x : ℚ) (l : List ℚ) :
    (insertSortedQ x l).length = l.length + 1 := by
  induction l with
  | nil => rfl
  | cons y ys ih =>
    unfold insertSortedQ
    by_cases h : x ≤ y
    · simp [h]
    · simp [h, ih]

theorem length_sortQ (l : List ℚ) : (sortQ l).length = l.length := by
  induction l with
  | nil => rfl
  | cons x xs ih =>
    unfold sortQ at ih ⊢
    simp [List.foldr_cons, length_insertSortedQ, ih]

theorem median_eq_none_iff (l : List ℚ) : median l = none ↔ l = [] := by
  unfold median
  constructor
  · intro hc
    by_cases h : (sortQ l).length = 0
    · rw [length_sortQ] at h
      exact List.length_eq_zero.mp h
    · exfalso
      rw [if_neg h] at hc
      by_cases hp : (sortQ l).length % 2 = 1
      · rw [if_pos hp] at hc
        exact Option.noConfusion hc
      · rw [if_neg hp] at hc
        exact Option.noConfusion hc
  · intro hc
    subst hc
    rfl

/-- Non-negativity of the day-difference quotient is exactly date order. -/
theorem leadDiff_nonneg_iff (da db : Int) :
    (0 : ℚ) ≤ ((db - da : Int) : ℚ) / 86400000 ↔ da ≤ db := by
  rw [div_nonneg_iff]
  constructor
  · rintro (⟨hn, _⟩ | ⟨_, hd⟩)
    · have h2 : (0 : Int) ≤ db - da := by exact_mod_cast hn
      omega
    · norm_num at hd
  · intro h
    left
    refine ⟨?_, by norm_num⟩
    have h2 : (0 : Int) ≤ db - da := by omega
    exact_mod_cast h2

/-- The lead-time sample of one endpoint pair is present iff the pair
qualifies. -/
theorem leadSample_eq_none_iff (p : PNode × PNode) :
    leadSample p = none ↔ hasLeadData p = false := by
  unfold leadSample hasLeadData
  cases he : isEtoM p with
  | false => simp [he]
  | true =>
    cases h1 : p.1.date with
    | none => simp [he, h1]
    | some da =>
      cases h2 : p.2.date with
      | none => simp [he, h1, h2]
      | some db =>
        simp only [he, h1, h2, if_true, Bool.true_and, Option.isSome_some,
          Option.getD_some, Bool.and_eq_false_imp]
        by_cases hd : (0 : ℚ) ≤ ((db - da : Int) : ℚ) / 86400000
        · rw [if_pos hd]
          rw [leadDiff_nonneg_iff] at hd
          simp [hd]
        · rw [if_neg hd]
          rw [leadDiff_nonneg_iff] at hd
          simp [hd]

theorem eToMLatency_eq_nil_iff (ends : List (PNode × PNode)) :
    eToMLatencyOf ends = [] ↔ ∀ p ∈ ends, hasLeadData p = false := by
  unfold eToMLatencyOf
  rw [List.filterMap_eq_nil_iff]
  constructor
  · intro h p hp
    exact (leadSample_eq_none_iff p).mp (h p hp)
  · intro h p hp
    exact (leadSample_eq_none_iff p).mpr (h p hp)

/-! ## Claim C1 (Scenario A) -/

/-- C1, counterexample: on the Scenario A input the recorded
`conversionRate` is 50, not 100 — two of the three nodes are exploring
and only `N1` has an outgoing E→M edge. -/
theorem c1_counterexample :
    (computeMetricsForProject "A" docA {} 0).conversionRate = 50 ∧ (50 : ℚ) ≠ 100 := by
  with_unfolding_all decide

/-- C1, amended: for the Scenario A input the record has `eToM = 1`,
`mToE = 1`, `feedbackRatio = 100`, `leadtimeMedianDays = 7`, and
`conversionRate = 50` (one of the two exploring nodes has an outgoing
E→M edge; the conversion rate divides by all exploring nodes). -/
theorem c1_amended_scenarioA :
    (computeMetricsForProject "A" docA {} 0).eToMEdges = 1 ∧
    (computeMetricsForProject "A" docA {} 0).mToEEdges = 1 ∧
    (computeMetricsForProject "A" docA {} 0).feedbackRatio = 100 ∧
    (computeMetricsForProject "A" docA {} 0).conversionRate = 50 ∧
    (computeMetricsForProject "A" docA {} 0).leadtimeMedianDays = some 7 := by
  with_unfolding_all decide

/-! ## Claim C3 (batch error handling) -/

/-- C3, counterexample: a document whose `JSON.parse` fails makes the
whole batch loop throw — the run returns an error, the later project is
never processed and no per-project error entry exists — while a document
whose `nodes`/`edges` fields are not arrays is processed normally (it
yields the same record as an empty document rather than failing the
project). -/
theorem c3_counterexample :
    runBatch {} 0 [("p1", none), ("p2", some docA)] =
      .error "SyntaxError: unexpected token in JSON" ∧
    computeMetricsForProject "na" {} {} 0 =
      computeMetricsForProject "na" { nodes := some [], edges := some [] } {} 0 := by
  constructor
  · rfl
  · with_unfolding_all decide

/-- C3, amended: the batch loop succeeds exactly when every document
parses — a single parse failure aborts the whole run (the exception
escapes the loop; no per-project error entry is recorded) — and a
document with non-array `nodes`/`edges` never fails its project: it is
analyzed with those fields treated as empty arrays. -/
theorem c3_amended_batch_crashes :
    (∀ (opts : Opts) (tz : Int) (l : List (String × Option RawDoc)),
        (∃ ms, runBatch opts tz l = .ok ms) ↔ ∀ p ∈ l, p.2.isSome = true) ∧
    (∀ (name : String) (opts : Opts) (tz : Int),
        computeMetricsForProject name {} opts tz =
          computeMetricsForProject name { nodes := some [], edges := some [] } opts tz) := by
  constructor
  · intro opts tz l
    induction l with
    | nil => simp [runBatch]
    | cons hd rest ih =>
      rcases hd with ⟨name, _ | doc⟩
      · simp [runBatch]
      · simp only [runBatch, List.mem_cons]
        constructor
        · rintro ⟨ms, hms⟩
          rcases hrest : runBatch opts tz rest with err | ms'
          · rw [hrest] at hms; exact absurd hms (by simp [Except.map])
          · intro p hp
            rcases hp with hp | hp
            · subst hp; rfl
            · exact (ih.mp ⟨ms', hrest⟩) p hp
        · intro h
          have hrest := ih.mpr (fun p hp => h p (Or.inr hp))
          rcases hrest with ⟨ms', hms'⟩
          exact ⟨computeMetricsForProject name doc opts tz :: ms', by
            rw [hms']; rfl⟩
  · intro name opts tz
    rfl

/-! ## Claim C5 (determinism / time-zone dependence) -/

/-- C5, counterexample: the very same Scenario A document analyzed under
two host UTC offsets (0 and +60 minutes east) yields different records —
dates are parsed as local midnight but `minDate` is rendered through a
UTC ISO string, so the rendered `minDate` regresses by one day. -/
theorem c5_counterexample :
    computeMetricsForProject "A" docA {} 0 ≠ computeMetricsForProject "A" docA {} 60 := by
  intro h
  have h2 := congrArg ProjectMetrics.minDate h
  have e1 : (computeMetricsForProject "A" docA {} 0).minDate = "2024-01-01" := by
    with_unfolding_all decide
  have e2 : (computeMetricsForProject "A" docA {} 60).minDate = "2023-12-31" := by
    with_unfolding_all decide
  rw [e1, e2] at h2
  exact absurd h2 (by decide)

/-- C5, amended: the pipeline is a pure function of the document, the
configuration and the host UTC offset — two runs with the same three
inputs agree — but it does depend on the offset: for the Scenario A
document the rendered `minDate` is `2024-01-01` at offset 0 and
`2023-12-31` at offset +60 (date differences such as the lead-time median
are unaffected by a constant offset). -/
theorem c5_amended_determinism :
    (∀ (name : String) (doc : RawDoc) (opts : Opts) (tz : Int),
        computeMetricsForProject name doc opts tz =
          computeMetricsForProject name doc opts tz) ∧
    (computeMetricsForProject "A" docA {} 0).minDate = "2024-01-01" ∧
    (computeMetricsForProject "A" docA {} 60).minDate = "2023-12-31" ∧
    (computeMetricsForProject "A" docA {} 60).leadtimeMedianDays =
      (computeMetricsForProject "A" docA {} 0).leadtimeMedianDays := by
  refine ⟨fun _ _ _ _ => rfl, ?_, ?_, ?_⟩
  · with_unfolding_all decide
  · with_unfolding_all decide
  · with_unfolding_all decide

/-! ## Claim C9 (duplicate edges and density) -/

/-- C9: valid edges are never deduplicated — the validity filter
preserves every repetition of a valid edge (its multiset count is
unchanged), each occurrence separately increments the endpoint degrees,
and on the concrete two-node document with the same edge three times the
record reports 3 edges and a density of 150 percent. -/
theorem c9_duplicate_edges_density :
    (∀ (ns : List PNode) (es : List RawEdge) (e : RawEdge),
        (!(e.s == "") && !(e.t == "") && !(e.s == e.t) && hasId ns e.s && hasId ns e.t) = true →
        (validEdges ns es).count e = es.count e) ∧
    (∀ (es : List RawEdge) (e : RawEdge),
        outDeg (es ++ [e]) e.s = outDeg es e.s + 1 ∧
        inDeg (es ++ [e]) e.t = inDeg es e.t + 1) ∧
    (computeMetricsForProject "C9" docC9 {} 0).edges = 3 ∧
    (computeMetricsForProject "C9" docC9 {} 0).density = 150 ∧
    (100 : ℚ) < (computeMetricsForProject "C9" docC9 {} 0).density := by
  refine ⟨?_, ?_, ?_, ?_, ?_⟩
  · intro ns es e he
    exact List.count_filter he
  · intro es e
    constructor <;> simp [outDeg, inDeg, List.countP_append, List.countP_cons]
  · with_unfolding_all decide
  · with_unfolding_all decide
  · with_unfolding_all decide

/-- C9, witness: the general parts applied to the concrete three-fold
edge of `docC9`. -/
theorem c9_duplicate_edges_density_witness :
    (validEdges (pNodes docC9 0) [{ s := "X", t := "Y" }, { s := "X", t := "Y" },
        { s := "X", t := "Y" }]).count { s := "X", t := "Y" } =
      ([{ s := "X", t := "Y" }, { s := "X", t := "Y" },
        { s := "X", t := "Y" }] : List RawEdge).count { s := "X", t := "Y" } ∧
    outDeg ([{ s := "X", t := "Y" }] ++ [{ s := "X", t := "Y" }]) "X" =
      outDeg [{ s := "X", t := "Y" }] "X" + 1 := by
  constructor
  · exact c9_duplicate_edges_density.1 (pNodes docC9 0) _ _ (by with_unfolding_all decide)
  · exact (c9_duplicate_edges_density.2.1 [{ s := "X", t := "Y" }] { s := "X", t := "Y" }).1

/-! ## Claim C10 (nullability of the metrics) -/

/-- C10, counterexample: `leadtimeMedianDays` is not the only nullable
metric of the per-project record — on a document with no parseable date
`spanDays` is also `null`. -/
theorem c10_counterexample :
    (computeMetricsForProject "nd" docNoDates {} 0).spanDays = none := by
  with_unfolding_all decide

/-- C10, amended: among the CSV-projected metrics, `leadtimeMedianDays`
is the only one that can be absent; it is `null` — an empty CSV cell,
rendered `-` in the report — exactly when no E→M edge has both endpoints
dated with a non-negative day difference; every other CSV cell always
carries a value.  (In the full record, `spanDays` can also be `null`.) -/
theorem c10_amended_leadtime_nullability :
    ∀ (name : String) (doc : RawDoc) (opts : Opts) (tz : Int),
      ((computeMetricsForProject name doc opts tz).leadtimeMedianDays = none ↔
        ∀ p ∈ endsOf doc tz, hasLeadData p = false) ∧
      ((toCsvRow (computeMetricsForProject name doc opts tz)).getD 11 .empty = .empty ↔
        (computeMetricsForProject name doc opts tz).leadtimeMedianDays = none) ∧
      ((computeMetricsForProject name doc opts tz).leadtimeMedianDays = none →
        reportLeadCell (computeMetricsForProject name doc opts tz) = "-") ∧
      (∀ i : Nat, i < 17 → i ≠ 11 →
        (toCsvRow (computeMetricsForProject name doc opts tz)).getD i .empty ≠ .empty) := by
  intro name doc opts tz
  refine ⟨?_, ?_, ?_, ?_⟩
  · show median (latencyOf doc tz) = none ↔ _
    rw [median_eq_none_iff]
    exact eToMLatency_eq_nil_iff (endsOf doc tz)
  · show (toCsvRow _).getD 11 _ = _ ↔ _
    rcases h : (computeMetricsForProject name doc opts tz).leadtimeMedianDays with _ | q <;>
      simp [toCsvRow, csvOptCell, h]
  · intro h
    unfold reportLeadCell
    rw [h]
  · intro i hlt hne
    interval_cases i <;>
      first
        | exact absurd rfl hne
        | simp [toCsvRow, csvOptCell]

/-- C10, witness: the amended statement applied to the Scenario A record
at index 0. -/
theorem c10_amended_leadtime_nullability_witness :
    0 < 17 ∧ 0 ≠ 11 ∧
    (toCsvRow (computeMetricsForProject "A" docA {} 0)).getD 0 .empty ≠ .empty :=
  ⟨by decide, by decide,
   (c10_amended_leadtime_nullability "A" docA {} 0).2.2.2 0 (by decide) (by decide)⟩

/-! ## Claim C4 (cohort aggregation and degraded zeroes) -/

/-- C4, counterexample: the aggregator does not exclude projects lacking
the underlying data.  For a cohort of one project with `feedbackRatio`
100 and one with no E→M edge (stored `feedbackRatio` 0), the aggregate
mean is 50; aggregating only the projects that actually have E→M edges
— what the claim requires — would give 100. -/
theorem c4_counterexample :
    (cohortAgg [computeMetricsForProject "f" docFull {} 0,
        computeMetricsForProject "n" docNoEM {} 0]).feedbackRatio.mean = some 50 ∧
    meanQ (([computeMetricsForProject "f" docFull {} 0,
        computeMetricsForProject "n" docNoEM {} 0]).filterMap
          (fun m => if m.eToMEdges = 0 then none else some m.feedbackRatio)) = some 100 := by
  with_unfolding_all decide

/-- C4, amended: the aggregator filters by `Number.isFinite` of the
stored value, so the `feedbackRatio` aggregate ranges over every project
of the cohort (a project lacking E→M edges contributes its stored 0, and
a project whose documents carry no dated node stores `interlacingIndex`
0), while only `leadtimeMedianDays` — stored as `null` — excludes the
projects lacking its data. -/
theorem c4_amended_aggregation :
    (∀ ms : List ProjectMetrics, ms ≠ [] →
        (cohortAgg ms).feedbackRatio.mean =
          some ((ms.map (fun m => m.feedbackRatio)).sum / ms.length)) ∧
    (∀ ms : List ProjectMetrics,
        (cohortAgg ms).leadtimeMedianDays =
          aggFor (ms.filterMap (fun m => m.leadtimeMedianDays))) ∧
    (∀ (name : String) (doc : RawDoc) (opts : Opts) (tz : Int), eToMOf doc tz = 0 →
        (computeMetricsForProject name doc opts tz).feedbackRatio = 0) ∧
    (∀ (name : String) (doc : RawDoc) (opts : Opts) (tz : Int), minDateOf doc tz = none →
        (computeMetricsForProject name doc opts tz).interlacingIndex = 0) := by
  have hmap : ∀ ms : List ProjectMetrics,
      ms.filterMap (fun m => some m.feedbackRatio) = ms.map (fun m => m.feedbackRatio) := by
    intro ms
    induction ms with
    | nil => rfl
    | cons m rest ih => simp [List.filterMap_cons, ih]
  refine ⟨?_, fun _ => rfl, ?_, ?_⟩
  · intro ms hms
    show meanQ (ms.filterMap (fun m => some m.feedbackRatio)) = _
    rw [hmap]
    have hlen : (ms.map (fun m => m.feedbackRatio)).length = ms.length := List.length_map _ _
    unfold meanQ
    rw [hlen]
    rw [if_neg (by simpa [List.length_eq_zero] using hms)]
  · intro name doc opts tz h
    show pctQ (mToEOf doc tz) (eToMOf doc tz) = 0
    rw [h]
    rfl
  · intro name doc opts tz h
    show (computeInterlacing (bucketsOf doc tz)).interlacingIndex = 0
    rw [show bucketsOf doc tz = [] from by rw [bucketsOf, h]]
    rfl

/-- C4, witness: the amended statement applied to a singleton cohort of
the project with no E→M edge. -/
theorem c4_amended_aggregation_witness :
    ([computeMetricsForProject "n" docNoEM {} 0] : List ProjectMetrics) ≠ [] ∧
    (cohortAgg [computeMetricsForProject "n" docNoEM {} 0]).feedbackRatio.mean =
      some ((([computeMetricsForProject "n" docNoEM {} 0]).map
        (fun m => m.feedbackRatio)).sum /
        ([computeMetricsForProject "n" docNoEM {} 0] : List ProjectMetrics).length) ∧
    eToMOf docNoEM 0 = 0 ∧
    (computeMetricsForProject "n" docNoEM {} 0).feedbackRatio = 0 :=
  ⟨by simp, c4_amended_aggregation.1 _ (by simp),
   by with_unfolding_all decide,
   c4_amended_aggregation.2.2.1 "n" docNoEM {} 0 (by with_unfolding_all decide)⟩

/-! ## Claim C2 (week bucketing) -/

theorem bucketExp_bump (bs : List (Int × Bucket)) (w' w : Int) (act : ActK) :
    bucketExp (bumpBucket bs w' act) w =
      bucketExp bs w + (if w = w' ∧ act = .exploring then 1 else 0) := by
  induction bs with
  | nil =>
    unfold bumpBucket bucketExp
    by_cases hw : w = w'
    · subst hw
      cases act <;> simp [List.lookup, bumpB]
    · have : (w == w') = false := by simpa using hw
      simp [List.lookup, this, hw]
  | cons p rest ih =>
    by_cases hp : p.1 = w'
    · unfold bumpBucket
      rw [if_pos hp]
      by_cases hw : w = p.1
      · unfold bucketExp
        have hbw : (w == p.1) = true := by simpa using hw
        have hbw2 : (w' == p.1) = true := by simpa using hp.symm
        cases act <;> simp [List.lookup, hbw, hbw2, bumpB, hw.trans hp]
      · unfold bucketExp
        have : (w == p.1) = false := by simpa using hw
        have hne : ¬(w = w' ∧ act = ActK.exploring) := by
          rintro ⟨h1, _⟩
          exact hw (h1.trans hp.symm)
        simp [List.lookup, this, hne]
    · unfold bumpBucket
      rw [if_neg hp]
      by_cases hw : w = p.1
      · unfold bucketExp
        have : (w == p.1) = true := by simpa using hw
        have hne : ¬(w = w' ∧ act = ActK.exploring) := by
          rintro ⟨h1, _⟩
          exact hp (h1 ▸ hw.symm ▸ rfl)
        simp [List.lookup, this, hne]
      · have : (w == p.1) = false := by simpa using hw
        unfold bucketExp at ih ⊢
        simpa [List.lookup, this] using ih

theorem bucketMk_bump (bs : List (Int × Bucket)) (w' w : Int) (act : ActK) :
    bucketMk (bumpBucket bs w' act) w =
      bucketMk bs w + (if w = w' ∧ act = .making then 1 else 0) := by
  induction bs with
  | nil =>
    unfold bumpBucket bucketMk
    by_cases hw : w = w'
    · subst hw
      cases act <;> simp [List.lookup, bumpB]
    · have : (w == w') = false := by simpa using hw
      simp [List.lookup, this, hw]
  | cons p rest ih =>
    by_cases hp : p.1 = w'
    · unfold bumpBucket
      rw [if_pos hp]
      by_cases hw : w = p.1
      · unfold bucketMk
        have hbw : (w == p.1) = true := by simpa using hw
        have hbw2 : (w' == p.1) = true := by simpa using hp.symm
        cases act <;> simp [List.lookup, hbw, hbw2, bumpB, hw.trans hp]
      · unfold bucketMk
        have : (w == p.1) = false := by simpa using hw
        have hne : ¬(w = w' ∧ act = ActK.making) := by
          rintro ⟨h1, _⟩
          exact hw (h1.trans hp.symm)
        simp [List.lookup, this, hne]
    · unfold bumpBucket
      rw [if_neg hp]
      by_cases hw : w = p.1
      · unfold bucketMk
        have : (w == p.1) = true := by simpa using hw
        have hne : ¬(w = w' ∧ act = ActK.making) := by
          rintro ⟨h1, _⟩
          exact hp (h1 ▸ hw.symm ▸ rfl)
        simp [List.lookup, this, hne]
      · have : (w == p.1) = false := by simpa using hw
        unfold bucketMk at ih ⊢
        simpa [List.lookup, this] using ih

/-- The week-`w` exploring count of `computeBuckets` counts exactly the
dated nodes whose week formula lands on `w`. -/
theorem bucketExp_computeBuckets (ns : List PNode) (mn : Int) (w : Int) :
    bucketExp (computeBuckets ns mn) w =
      ns.countP (fun n => n.date.isSome &&
        decide (weekFor mn (n.date.getD 0) = w) && decide (n.action = .exploring)) := by
  suffices h : ∀ bs, bucketExp (ns.foldl
      (fun bs n =>
        match n.date with
        | none => bs
        | some d => bumpBucket bs (max 0 (Int.fdiv (d - mn) weekMs)) n.action) bs) w =
      bucketExp bs w + ns.countP (fun n => n.date.isSome &&
        decide (weekFor mn (n.date.getD 0) = w) && decide (n.action = .exploring)) by
    have := h []
    simpa [computeBuckets, bucketExp, List.lookup] using this
  induction ns with
  | nil => intro bs; simp
  | cons n rest ih =>
    intro bs
    rcases hd : n.date with _ | d
    · simp only [List.foldl_cons, hd, List.countP_cons]
      rw [ih]
      simp [hd]
    · simp only [List.foldl_cons, hd, List.countP_cons]
      rw [ih, bucketExp_bump]
      have harr : (max 0 (Int.fdiv (d - mn) weekMs)) = weekFor mn d := rfl
      by_cases hw : weekFor mn d = w <;> by_cases ha : n.action = ActK.exploring <;>
        simp [hd, hw, ha, harr, eq_comm (a := w)] <;> omega

/-- The week-`w` making count of `computeBuckets`. -/
theorem bucketMk_computeBuckets (ns : List PNode) (mn : Int) (w : Int) :
    bucketMk (computeBuckets ns mn) w =
      ns.countP (fun n => n.date.isSome &&
        decide (weekFor mn (n.date.getD 0) = w) && decide (n.action = .making)) := by
  suffices h : ∀ bs, bucketMk (ns.foldl
      (fun bs n =>
        match n.date with
        | none => bs
        | some d => bumpBucket bs (max 0 (Int.fdiv (d - mn) weekMs)) n.action) bs) w =
      bucketMk bs w + ns.countP (fun n => n.date.isSome &&
        decide (weekFor mn (n.date.getD 0) = w) && decide (n.action = .making)) by
    have := h []
    simpa [computeBuckets, bucketMk, List.lookup] using this
  induction ns with
  | nil => intro bs; simp
  | cons n rest ih =>
    intro bs
    rcases hd : n.date with _ | d
    · simp only [List.foldl_cons, hd, List.countP_cons]
      rw [ih]
      simp [hd]
    · simp only [List.foldl_cons, hd, List.countP_cons]
      rw [ih, bucketMk_bump]
      have harr : (max 0 (Int.fdiv (d - mn) weekMs)) = weekFor mn d := rfl
      by_cases hw : weekFor mn d = w <;> by_cases ha : n.action = ActK.making <;>
        simp [hd, hw, ha, harr, eq_comm (a := w)] <;> omega

theorem length_bumpTl (tl : List (Nat × Nat)) (w : Nat) (ex mk : Bool) :
    (bumpTl tl w ex mk).length = tl.length := by
  induction tl generalizing w with
  | nil => rfl
  | cons p rest ih =>
    cases w with
    | zero => rfl
    | succ v => simp [bumpTl, ih]

theorem bumpTl_getD (tl : List (Nat × Nat)) (w' w : Nat) (ex mk : Bool) :
    (bumpTl tl w' ex mk).getD w (0, 0) =
      if w = w' ∧ w' < tl.length then
        ((tl.getD w (0, 0)).1 + (if ex then 1 else 0),
         (tl.getD w (0, 0)).2 + (if mk then 1 else 0))
      else tl.getD w (0, 0) := by
  induction tl generalizing w w' with
  | nil => simp [bumpTl]
  | cons p rest ih =>
    cases w' with
    | zero =>
      cases w with
      | zero => simp [bumpTl]
      | succ v => simp [bumpTl]
    | succ u =>
      cases w with
      | zero => simp [bumpTl]
      | succ v =>
        simp only [bumpTl, List.getD_cons_succ]
        rw [ih]
        have hiff : (v = u ∧ u < rest.length) ↔
            (v + 1 = u + 1 ∧ u + 1 < (p :: rest).length) := by
          simp only [List.length_cons]
          constructor
          · rintro ⟨h1, h2⟩; exact ⟨by omega, by omega⟩
          · rintro ⟨h1, h2⟩; exact ⟨by omega, by omega⟩
        rw [if_congr hiff rfl rfl]

theorem getD_replicate_pair (n w : Nat) (hw : w < n) :
    (List.replicate n ((0 : Nat), (0 : Nat))).getD w (0, 0) = (0, 0) := by
  induction n generalizing w with
  | zero => omega
  | succ m ih =>
    cases w with
    | zero => simp [List.replicate]
    | succ v =>
      simp only [List.replicate, List.getD_cons_succ]
      exact ih v (by omega)

theorem timeline_fold_getD (em : List (String × Int)) (mn : Int) :
    ∀ (tl0 : List (Nat × Nat)) (w : Nat), w < tl0.length →
    (em.foldl (fun tl p =>
        bumpTl tl (max 0 (Int.fdiv (p.2 - mn) weekMs)).toNat
          (p.1 == "exploring") (p.1 == "making")) tl0).getD w (0, 0) =
      ((tl0.getD w (0, 0)).1 +
        em.countP (fun p => p.1 == "exploring" && decide ((weekFor mn p.2).toNat = w)),
       (tl0.getD w (0, 0)).2 +
        em.countP (fun p => p.1 == "making" && decide ((weekFor mn p.2).toNat = w))) := by
  induction em with
  | nil => intro tl0 w _; simp
  | cons p rest ih =>
    intro tl0 w hw
    simp only [List.foldl_cons, List.countP_cons]
    rw [ih _ w (by rw [length_bumpTl]; exact hw)]
    rw [bumpTl_getD]
    have harr : (max 0 (Int.fdiv (p.2 - mn) weekMs)).toNat = (weekFor mn p.2).toNat := rfl
    by_cases hw2 : w = (weekFor mn p.2).toNat
    · rw [if_pos ⟨by rw [harr]; exact hw2, by rw [harr, ← hw2]; exact hw⟩]
      cases hb1 : (p.1 == "exploring") <;> cases hb2 : (p.1 == "making") <;>
        simp [hb1, hb2, hw2] <;> omega
    · rw [if_neg (by rw [harr]; exact fun hc => hw2 hc.1)]
      have : ¬((weekFor mn p.2).toNat = w) := fun hc => hw2 hc.symm
      simp [this]

/-- C2, counterexample: in `docC2` a dated `other`-action node (Jan 1)
precedes the only dated exploring node (Jan 15, civil day 19737).  Under
the claim's origin — the minimum over dated exploring/making nodes — the
exploring node belongs to week 0, but the computed buckets place nothing
in week 0 and one exploring occurrence in week 2. -/
theorem c2_counterexample :
    bucketExp (bucketsOf docC2 0) 0 = 0 ∧
    bucketExp (bucketsOf docC2 0) 2 = 1 ∧
    emMinOf docC2 0 = some (epochMsOfDay 19737 0) ∧
    (pNodes docC2 0).countP (fun n => n.date.isSome &&
      decide (weekFor (epochMsOfDay 19737 0) (n.date.getD 0) = 0) &&
      decide (n.action = .exploring)) = 1 := by
  decide

/-- C2, amended: the composer's week buckets use
`week = max(0, floor((date - minDate) / 7 days))` with `minDate` the
minimum over ALL nodes with a parseable date regardless of action (its
week-`w` exploring/making counters count exactly the dated nodes of that
action landing on `w`, and undated nodes contribute to no bucket); the
separate per-project timelines pass uses the minimum over dated
exploring/making nodes only. -/
theorem c2_amended_week_bucketing :
    (∀ (doc : RawDoc) (tz mn : Int), minDateOf doc tz = some mn →
      ∀ w : Int,
        bucketExp (bucketsOf doc tz) w =
          (pNodes doc tz).countP (fun n => n.date.isSome &&
            decide (weekFor mn (n.date.getD 0) = w) && decide (n.action = .exploring)) ∧
        bucketMk (bucketsOf doc tz) w =
          (pNodes doc tz).countP (fun n => n.date.isSome &&
            decide (weekFor mn (n.date.getD 0) = w) && decide (n.action = .making))) ∧
    (∀ (doc : RawDoc) (opts : Opts) (tz mn : Int), emMinOf doc tz = some mn →
      ∀ tl, timelineOf doc opts tz = some tl →
      ∀ w : Nat, w < maxWeeksN opts →
        tl.getD w (0, 0) =
          ((emNodesOf doc tz).countP
            (fun p => p.1 == "exploring" && decide ((weekFor mn p.2).toNat = w)),
           (emNodesOf doc tz).countP
            (fun p => p.1 == "making" && decide ((weekFor mn p.2).toNat = w)))) := by
  constructor
  · intro doc tz mn h w
    have hb : bucketsOf doc tz =
        computeBuckets ((pNodes doc tz).filter (fun n => !decide (n.action = .other))) mn := by
      rw [bucketsOf, h]
    constructor
    · rw [hb, bucketExp_computeBuckets, List.countP_filter]
      apply List.countP_congr
      intro n _
      cases hn : n.action <;> simp [hn]
    · rw [hb, bucketMk_computeBuckets, List.countP_filter]
      apply List.countP_congr
      intro n _
      cases hn : n.action <;> simp [hn]
  · intro doc opts tz mn h tl htl w hw
    have hform : timelineOf doc opts tz =
        some ((emNodesOf doc tz).foldl
          (fun tl p =>
            bumpTl tl (max 0 (Int.fdiv (p.2 - mn) weekMs)).toNat
              (p.1 == "exploring") (p.1 == "making"))
          (List.replicate (maxWeeksN opts) (0, 0))) := by
      unfold timelineOf
      rw [h]
    rw [hform] at htl
    have htl2 := Option.some.inj htl
    subst htl2
    rw [timeline_fold_getD _ mn _ w (by rw [List.length_replicate]; exact hw)]
    rw [getD_replicate_pair _ _ hw]
    simp

/-- C2, witness: the bucket characterization applied to `docC2`, whose
all-dated minimum is Jan 1 2024 (civil day 19723). -/
theorem c2_amended_week_bucketing_witness :
    minDateOf docC2 0 = some (epochMsOfDay 19723 0) ∧
    bucketExp (bucketsOf docC2 0) 2 =
      (pNodes docC2 0).countP (fun n => n.date.isSome &&
        decide (weekFor (epochMsOfDay 19723 0) (n.date.getD 0) = 2) &&
        decide (n.action = .exploring)) :=
  ⟨by decide,
   (c2_amended_week_bucketing.1 docC2 0 (epochMsOfDay 19723 0)
      (by decide) 2).1⟩

/-! ## Claim C8 (idempotence of area normalization) -/

theorem collapseGo_cons_ws_true {x : Char} (hx : isWs x = true) (xs : List Char) :
    collapseGo true (x :: xs) = collapseGo true xs := by
  simp [collapseGo, hx]

theorem collapseGo_cons_ws_false {x : Char} (hx : isWs x = true) (xs : List Char) :
    collapseGo false (x :: xs) = ' ' :: collapseGo true xs := by
  simp [collapseGo, hx]

theorem collapseGo_cons_not_ws {x : Char} (hx : isWs x = false) (b : Bool) (xs : List Char) :
    collapseGo b (x :: xs) = x :: collapseGo false xs := by
  cases b <;> simp [collapseGo, hx]

/-- Every whitespace character that `collapseGo` emits is a plain space. -/
theorem collapseGo_ws_space (l : List Char) :
    ∀ (b : Bool), ∀ c ∈ collapseGo b l, isWs c = true → c = ' ' := by
  induction l with
  | nil => intro b c hc; simp [collapseGo] at hc
  | cons x xs ih =>
    intro b c hc hw
    cases hx : isWs x with
    | true =>
      cases b with
      | true =>
        rw [collapseGo_cons_ws_true hx] at hc
        exact ih true c hc hw
      | false =>
        rw [collapseGo_cons_ws_false hx] at hc
        rcases List.mem_cons.mp hc with h | h
        · exact h
        · exact ih true c h hw
    | false =>
      rw [collapseGo_cons_not_ws hx] at hc
      rcases List.mem_cons.mp hc with h | h
      · subst h; rw [hx] at hw; exact absurd hw (by simp)
      · exact ih false c h hw

/-- In skip mode the first emitted character is not whitespace. -/
theorem collapseGo_true_head (l : List Char) :
    ∀ c, (collapseGo true l).head? = some c → isWs c = false := by
  induction l with
  | nil => intro c hc; simp [collapseGo] at hc
  | cons x xs ih =>
    intro c hc
    cases hx : isWs x with
    | true =>
      rw [collapseGo_cons_ws_true hx] at hc
      exact ih c hc
    | false =>
      rw [collapseGo_cons_not_ws hx] at hc
      simp only [List.head?_cons, Option.some.injEq] at hc
      subst hc
      exact hx

/-- `collapseGo` never emits two adjacent whitespace characters. -/
theorem collapseGo_chain (l : List Char) :
    ∀ (b : Bool), (collapseGo b l).Chain'
      (fun a c => ¬(isWs a = true ∧ isWs c = true)) := by
  induction l with
  | nil => intro b; simp [collapseGo]
  | cons x xs ih =>
    intro b
    cases hx : isWs x with
    | true =>
      cases b with
      | true => rw [collapseGo_cons_ws_true hx]; exact ih true
      | false =>
        rw [collapseGo_cons_ws_false hx]
        rw [List.chain'_cons']
        refine ⟨?_, ih true⟩
        intro y hy hcon
        have := collapseGo_true_head xs y (Option.mem_def.mp hy)
        rw [this] at hcon
        exact absurd hcon.2 (by simp)
    | false =>
      rw [collapseGo_cons_not_ws hx]
      rw [List.chain'_cons']
      refine ⟨?_, ih false⟩
      intro y _ hcon
      rw [hx] at hcon
      exact absurd hcon.1 (by simp)

/-- The first character surviving `dropWhile isWs` is not whitespace. -/
theorem dropWhile_isWs_head (l : List Char) :
    ∀ c, (l.dropWhile isWs).head? = some c → isWs c = false := by
  induction l with
  | nil => intro c hc; simp at hc
  | cons x xs ih =>
    intro c hc
    cases hx : isWs x with
    | true => rw [List.dropWhile_cons, if_pos (by rw [hx])] at hc; exact ih c hc
    | false =>
      rw [List.dropWhile_cons, if_neg (by rw [hx]; simp)] at hc
      simp only [List.head?_cons, Option.some.injEq] at hc
      subst hc
      exact hx

theorem trimChars_subset (l : List Char) : ∀ c ∈ trimChars l, c ∈ l := by
  intro c hc
  unfold trimChars at hc
  rw [List.mem_reverse] at hc
  have h1 := List.IsSuffix.mem hc (List.dropWhile_suffix isWs)
  rw [List.mem_reverse] at h1
  exact List.IsSuffix.mem h1 (List.dropWhile_suffix isWs)

theorem trimChars_chain (l : List Char)
    (h : l.Chain' (fun a c => ¬(isWs a = true ∧ isWs c = true))) :
    (trimChars l).Chain' (fun a c => ¬(isWs a = true ∧ isWs c = true)) := by
  have h1 : (l.dropWhile isWs).Chain' (fun a c => ¬(isWs a = true ∧ isWs c = true)) :=
    h.suffix (List.dropWhile_suffix isWs)
  have h2 : ((l.dropWhile isWs).reverse).Chain'
      (fun a c => ¬(isWs a = true ∧ isWs c = true)) := by
    rw [List.chain'_reverse]
    exact List.Chain'.imp (fun a b hab hcon => hab ⟨hcon.2, hcon.1⟩) h1
  have h3 : (((l.dropWhile isWs).reverse).dropWhile isWs).Chain'
      (fun a c => ¬(isWs a = true ∧ isWs c = true)) :=
    h2.suffix (List.dropWhile_suffix isWs)
  unfold trimChars
  rw [List.chain'_reverse]
  exact List.Chain'.imp (fun a b hab hcon => hab ⟨hcon.2, hcon.1⟩) h3

theorem trimChars_head (l : List Char) :
    ∀ c, (trimChars l).head? = some c → isWs c = false := by
  intro c hc
  unfold trimChars at hc
  rw [List.head?_reverse] at hc
  obtain ⟨pre, hpre⟩ := List.dropWhile_suffix (l := (l.dropWhile isWs).reverse) isWs
  have hY : ((l.dropWhile isWs).reverse).getLast? = some c := by
    rw [← hpre, List.getLast?_append, hc]
    rfl
  rw [List.getLast?_reverse] at hY
  exact dropWhile_isWs_head l c hY

theorem trimChars_getLast (l : List Char) :
    ∀ c, (trimChars l).getLast? = some c → isWs c = false := by
  intro c hc
  unfold trimChars at hc
  rw [List.getLast?_reverse] at hc
  exact dropWhile_isWs_head (l.dropWhile isWs).reverse c hc

theorem collapseGo_true_of_head (xs : List Char)
    (h : ∀ c, xs.head? = some c → isWs c = false) :
    collapseGo true xs = collapseGo false xs := by
  cases xs with
  | nil => rfl
  | cons c cs =>
    have hc := h c rfl
    rw [collapseGo_cons_not_ws hc, collapseGo_cons_not_ws hc]

/-- A list whose whitespace is all plain spaces and never adjacent is a
fixed point of whitespace collapsing. -/
theorem collapseGo_fixed (l : List Char)
    (hsp : ∀ c ∈ l, isWs c = true → c = ' ')
    (hch : l.Chain' (fun a c => ¬(isWs a = true ∧ isWs c = true))) :
    collapseGo false l = l := by
  induction l with
  | nil => rfl
  | cons x xs ih =>
    cases hx : isWs x with
    | true =>
      have hsp' : x = ' ' := hsp x (List.mem_cons_self x xs) hx
      rw [collapseGo_cons_ws_false hx]
      have hhead : ∀ c, xs.head? = some c → isWs c = false := by
        intro c hc
        cases xs with
        | nil => simp at hc
        | cons y ys =>
          simp only [List.head?_cons, Option.some.injEq] at hc
          subst hc
          have hr := (List.chain'_cons.mp hch).1
          by_contra hcy
          rw [Bool.not_eq_false] at hcy
          exact hr ⟨hx, hcy⟩
      rw [collapseGo_true_of_head xs hhead]
      rw [ih (fun c hc hw => hsp c (List.mem_cons_of_mem x hc) hw) hch.tail]
      rw [hsp']
    | false =>
      rw [collapseGo_cons_not_ws hx]
      rw [ih (fun c hc hw => hsp c (List.mem_cons_of_mem x hc) hw) hch.tail]

/-- A list with no leading and no trailing whitespace is a fixed point of
trimming. -/
theorem trimChars_fixed (l : List Char)
    (hh : ∀ c, l.head? = some c → isWs c = false)
    (hl : ∀ c, l.getLast? = some c → isWs c = false) :
    trimChars l = l := by
  have h1 : l.dropWhile isWs = l := by
    cases l with
    | nil => rfl
    | cons x xs =>
      have := hh x rfl
      rw [List.dropWhile_cons, if_neg (by rw [this]; simp)]
  unfold trimChars
  rw [h1]
  have h2 : l.reverse.dropWhile isWs = l.reverse := by
    cases hrev : l.reverse with
    | nil => rfl
    | cons y ys =>
      have hy : l.getLast? = some y := by
        rw [← List.head?_reverse, hrev]
        rfl
      have := hl y hy
      rw [List.dropWhile_cons, if_neg (by rw [this]; simp)]
  rw [h2, List.reverse_reverse]

/-- `cleanTxt` is idempotent. -/
theorem cleanTxt_idem (v : String) : cleanTxt (cleanTxt v) = cleanTxt v := by
  show String.mk (trimChars (collapseWs (trimChars (collapseWs v.data)))) = _
  have hsp : ∀ c ∈ trimChars (collapseWs v.data), isWs c = true → c = ' ' :=
    fun c hc hw => collapseGo_ws_space v.data false c (trimChars_subset _ c hc) hw
  have hch := trimChars_chain (collapseWs v.data) (collapseGo_chain v.data false)
  show String.mk (trimChars (collapseGo false (trimChars (collapseWs v.data)))) = _
  rw [collapseGo_fixed _ hsp hch]
  rw [trimChars_fixed _ (trimChars_head _) (trimChars_getLast _)]
  rfl

/-- `canonicalAreaName` is idempotent. -/
theorem canonicalAreaName_idem (v : String) :
    canonicalAreaName (canonicalAreaName v) = canonicalAreaName v := by
  by_cases h0 : cleanTxt v = ""
  · rw [show canonicalAreaName v = "" from by rw [canonicalAreaName, if_pos h0]]
    decide
  · by_cases h1 : lowOf (cleanTxt v) = "speculative" ∨ lowOf (cleanTxt v) = "speculative design"
    · rw [show canonicalAreaName v = "Speculative Design" from by
        rw [canonicalAreaName, if_neg h0, if_pos h1]]
      decide
    · by_cases h2 : lowOf (cleanTxt v) = "communication" ∨
          lowOf (cleanTxt v) = "communication design"
      · rw [show canonicalAreaName v = "Communication Design" from by
          rw [canonicalAreaName, if_neg h0, if_neg h1, if_pos h2]]
        decide
      · by_cases h3 : lowOf (cleanTxt v) = "interaction" ∨
            lowOf (cleanTxt v) = "interaction design"
        · rw [show canonicalAreaName v = "Interaction Design" from by
            rw [canonicalAreaName, if_neg h0, if_neg h1, if_neg h2, if_pos h3]]
          decide
        · rw [show canonicalAreaName v = cleanTxt v from by
            rw [canonicalAreaName, if_neg h0, if_neg h1, if_neg h2, if_neg h3]]
          rw [canonicalAreaName, cleanTxt_idem v]
          rw [if_neg h0, if_neg h1, if_neg h2, if_neg h3]

/-- Invariant of the `normalizeAreaList` fold: the seen set is exactly
the key image of the output, keys are distinct, and every output element
is a nonempty fixed point of canonicalization with a nonempty key. -/
theorem pushArea_foldl_inv (xs : List String) :
    ∀ st : List String × List String,
      st.1 = st.2.map normKey → st.1.Nodup →
      (∀ m ∈ st.2, canonicalAreaName m = m ∧ normKey m ≠ "") →
      (xs.foldl pushArea st).1 = (xs.foldl pushArea st).2.map normKey ∧
      (xs.foldl pushArea st).1.Nodup ∧
      (∀ m ∈ (xs.foldl pushArea st).2, canonicalAreaName m = m ∧ normKey m ≠ "") := by
  induction xs with
  | nil => intro st h1 h2 h3; exact ⟨h1, h2, h3⟩
  | cons raw rest ih =>
    intro st h1 h2 h3
    simp only [List.foldl_cons]
    by_cases hm : canonicalAreaName raw = ""
    · rw [show pushArea st raw = st from by rw [pushArea, if_pos hm]]
      exact ih st h1 h2 h3
    · by_cases hk : normKey (canonicalAreaName raw) = "" ∨ normKey (canonicalAreaName raw) ∈ st.1
      · rw [show pushArea st raw = st from by rw [pushArea, if_neg hm, if_pos hk]]
        exact ih st h1 h2 h3
      · push_neg at hk
        rw [show pushArea st raw =
            (st.1 ++ [normKey (canonicalAreaName raw)], st.2 ++ [canonicalAreaName raw]) from by
          rw [pushArea, if_neg hm, if_neg (by push_neg; exact hk)]]
        apply ih
        · simp [h1]
        · rw [List.nodup_append]
          exact ⟨h2, List.nodup_singleton _, by
            intro a ha hb
            rw [List.mem_singleton] at hb
            exact hk.2 (hb ▸ ha)⟩
        · intro m hmem
          rcases List.mem_append.mp hmem with h | h
          · exact h3 m h
          · rw [List.mem_singleton] at h
            subst h
            exact ⟨canonicalAreaName_idem raw, hk.1⟩

/-- Feeding a list that already satisfies the invariant back through the
fold reproduces it verbatim. -/
theorem pushArea_foldl_replay (ms : List String) :
    ∀ (seen out : List String),
      (∀ m ∈ ms, canonicalAreaName m = m ∧ normKey m ≠ "" ∧ normKey m ∉ seen) →
      (ms.map normKey).Nodup →
      ms.foldl pushArea (seen, out) = (seen ++ ms.map normKey, out ++ ms) := by
  induction ms with
  | nil => intro seen out _ _; simp
  | cons m rest ih =>
    intro seen out h hnd
    obtain ⟨hcan, hkey, hseen⟩ := h m (List.mem_cons_self m rest)
    have hm0 : ¬(m = "") := by
      intro h0
      apply hkey
      rw [h0]
      rfl
    simp only [List.foldl_cons]
    rw [show pushArea (seen, out) m = (seen ++ [normKey m], out ++ [m]) from by
      rw [pushArea, hcan, if_neg hm0, if_neg (show ¬(normKey m = "" ∨ normKey m ∈ seen) from by
        rintro (hc | hc)
        · exact hkey hc
        · exact hseen hc)]]
    rw [ih (seen ++ [normKey m]) (out ++ [m]) ?_ ?_]
    · simp
    · intro m' hm'
      obtain ⟨c1, c2, c3⟩ := h m' (List.mem_cons_of_mem _ hm')
      refine ⟨c1, c2, ?_⟩
      simp only [List.mem_append, List.mem_singleton]
      rintro (hc | hc)
      · exact c3 hc
      · have := (List.nodup_cons.mp hnd).1
        exact this (hc ▸ List.mem_map_of_mem normKey hm')
    · exact (List.nodup_cons.mp hnd).2

/-- C8: area normalization is idempotent — renormalizing the output of
`normalizeAreaList` (for any primary and legacy inputs) reproduces it
unchanged: canonicalization fixes its own output, keys are unchanged,
distinct and nonempty, so every element passes the dedup filter again in
order. -/
theorem c8_area_normalization_idempotent :
    ∀ (areas legacy : List String),
      normalizeAreas (normalizeAreas areas legacy) [] = normalizeAreas areas legacy := by
  intro areas legacy
  obtain ⟨h1, h2, h3⟩ := pushArea_foldl_inv (areas ++ legacy) ([], []) rfl List.nodup_nil
    (by intro m hm; exact absurd hm (List.not_mem_nil m))
  have hdef : normalizeAreas areas legacy = ((areas ++ legacy).foldl pushArea ([], [])).2 := rfl
  show ((normalizeAreas areas legacy ++ []).foldl pushArea ([], [])).2 = _
  rw [List.append_nil]
  rw [pushArea_foldl_replay (normalizeAreas areas legacy) [] []
    (fun m hm => ⟨(h3 m (hdef ▸ hm)).1, (h3 m (hdef ▸ hm)).2, List.not_mem_nil _⟩)
    (by rw [hdef, ← h1]; exact h2)]
  simp

/-! ## Claim C7 (reciprocity) -/

/-- `jsSetOfList` commutes with an injective map. -/
theorem foldl_setIns_map {α β : Type} [DecidableEq α] [DecidableEq β] (f : α → β) :
    ∀ (l acc : List α),
      (∀ a, (a ∈ acc ∨ a ∈ l) → ∀ b, (b ∈ acc ∨ b ∈ l) → f a = f b → a = b) →
      (l.map f).foldl (fun acc a => if a ∈ acc then acc else acc ++ [a]) (acc.map f) =
        (l.foldl (fun acc a => if a ∈ acc then acc else acc ++ [a]) acc).map f := by
  intro l
  induction l with
  | nil => intro acc _; simp
  | cons a as ih =>
    intro acc hinj
    simp only [List.map_cons, List.foldl_cons]
    have hstep : (if f a ∈ acc.map f then acc.map f else acc.map f ++ [f a]) =
        (if a ∈ acc then acc else acc ++ [a]).map f := by
      by_cases ha : a ∈ acc
      · rw [if_pos (List.mem_map_of_mem f ha), if_pos ha]
      · rw [if_neg ?_, if_neg ha]
        · simp
        · intro hmem
          rcases List.mem_map.mp hmem with ⟨b, hb, hfb⟩
          exact ha ((hinj b (Or.inl hb) a (Or.inr (List.mem_cons_self a as)) hfb) ▸ hb)
    rw [hstep]
    apply ih
    intro x hx y hy hfxy
    have hdom : ∀ z, z ∈ (if a ∈ acc then acc else acc ++ [a]) ∨ z ∈ as →
        z ∈ acc ∨ z ∈ a :: as := by
      intro z hz
      rcases hz with hz | hz
      · by_cases ha : a ∈ acc
        · rw [if_pos ha] at hz; exact Or.inl hz
        · rw [if_neg ha] at hz
          rcases List.mem_append.mp hz with hz | hz
          · exact Or.inl hz
          · exact Or.inr (by rw [List.mem_singleton.mp hz]; exact List.mem_cons_self a as)
      · exact Or.inr (List.mem_cons_of_mem a hz)
    exact hinj x (hdom x hx) y (hdom y hy) hfxy

theorem jsSetOfList_map {α β : Type} [DecidableEq α] [DecidableEq β] (f : α → β)
    (l : List α) (hinj : ∀ a ∈ l, ∀ b ∈ l, f a = f b → a = b) :
    jsSetOfList (l.map f) = (jsSetOfList l).map f := by
  unfold jsSetOfList
  have := foldl_setIns_map f l []
    (by
      intro a ha b hb hf
      rcases ha with ha | ha
      · exact absurd ha (List.not_mem_nil a)
      · rcases hb with hb | hb
        · exact absurd hb (List.not_mem_nil b)
        · exact hinj a ha b hb hf)
  simpa using this

/-- Arrow-free prefixes make the key encoding injective. -/
theorem arrow_encode_inj (a : List Char) :
    ∀ (c b d : List Char), '→' ∉ a → '→' ∉ c →
      a ++ '→' :: b = c ++ '→' :: d → a = c ∧ b = d := by
  induction a with
  | nil =>
    intro c b d _ hc h
    cases c with
    | nil => simpa using h
    | cons y ys =>
      simp only [List.nil_append, List.cons_append, List.cons.injEq] at h
      exact absurd (show '→' ∈ y :: ys from by rw [h.1]; exact List.mem_cons_self y ys) hc
  | cons x xs ih =>
    intro c b d ha hc h
    cases c with
    | nil =>
      simp only [List.nil_append, List.cons_append, List.cons.injEq] at h
      exact absurd (show '→' ∈ x :: xs from by rw [← h.1]; exact List.mem_cons_self x xs) ha
    | cons y ys =>
      simp only [List.cons_append, List.cons.injEq] at h
      obtain ⟨hxy, hrest⟩ := h
      obtain ⟨h1, h2⟩ := ih ys b d (fun hm => ha (List.mem_cons_of_mem x hm))
        (fun hm => hc (List.mem_cons_of_mem y hm)) hrest
      exact ⟨by rw [hxy, h1], h2⟩

theorem splitOn_arrow_encode (a b : List Char) (ha : '→' ∉ a) (hb : '→' ∉ b) :
    (a ++ '→' :: b).splitOn '→' = [a, b] := by
  have henc : ['→'].intercalate [a, b] = a ++ '→' :: b := by
    simp [List.intercalate, List.intersperse]
  rw [← henc]
  refine List.splitOn_intercalate [a, b] '→' ?_ (by simp)
  intro l hl
  rcases List.mem_cons.mp hl with h | h
  · exact h ▸ ha
  · rcases List.mem_cons.mp h with h2 | h2
    · exact h2 ▸ hb
    · exact absurd h2 (List.not_mem_nil l)

theorem splitArrow_encode (a b : List Char) (ha : '→' ∉ a) (hb : '→' ∉ b) :
    splitArrow (a ++ '→' :: b) = (a, b) := by
  unfold splitArrow
  rw [splitOn_arrow_encode a b ha hb]

/-- C7, counterexample: with node ids containing the key separator `→`,
the reciprocity count is wrong — the valid edge list
`[a→b ⟶ c, b ⟶ a]` has no unordered pair connected in both
directions, yet `reciprocalPairsOf` reports 1. -/
theorem c7_counterexample :
    reciprocalPairsOf (validEdges arrowNodes arrowEdges) = 1 ∧
    (recipPairSet (validEdges arrowNodes arrowEdges)).card = 0 := by
  constructor
  · decide
  · decide

/-- C7, amended: provided no node id contains the separator character
`→`, the reciprocity count equals the number of unordered pairs of nodes
connected in both directions — represented canonically as the pairs
`(a, b)` with `a` string-smaller than `b` such that both `a→b` and `b→a`
occur, each counted once — and the count is invariant under any
permutation of the edge list. -/
theorem c7_amended_reciprocity :
    (∀ es : List RawEdge, ArrowFree es →
        reciprocalPairsOf es = (recipPairSet es).card) ∧
    (∀ es es' : List RawEdge, es.Perm es' →
        reciprocalPairsOf es = reciprocalPairsOf es') := by
  constructor
  · intro es h
    -- the keys are the injective image of the endpoint pairs
    have hpair : ∀ p ∈ pairsOf es, '→' ∉ p.1.data ∧ '→' ∉ p.2.data := by
      intro p hp
      rcases List.mem_map.mp hp with ⟨e, he, hpe⟩
      obtain ⟨h1, h2⟩ := h e he
      exact hpe ▸ ⟨h1, h2⟩
    have hinj : ∀ p ∈ pairsOf es, ∀ q ∈ pairsOf es, keyOfPair p = keyOfPair q → p = q := by
      intro p hp q hq hk
      obtain ⟨hp1, _⟩ := hpair p hp
      obtain ⟨hq1, _⟩ := hpair q hq
      obtain ⟨h1, h2⟩ := arrow_encode_inj p.1.data q.1.data p.2.data q.2.data hp1 hq1 hk
      exact Prod.ext (String.ext h1) (String.ext h2)
    have hkeys : es.map recipKey = (pairsOf es).map keyOfPair := by
      unfold pairsOf recipKey keyOfPair
      rw [List.map_map]
      rfl
    have hset : jsSetOfList (es.map recipKey) = (jsSetOfList (pairsOf es)).map keyOfPair := by
      rw [hkeys]
      exact jsSetOfList_map keyOfPair (pairsOf es) hinj
    unfold reciprocalPairsOf
    rw [hset, List.countP_map]
    -- rewrite the predicate on decoded pairs
    have hcongr : ∀ p ∈ jsSetOfList (pairsOf es),
        ((fun k =>
          decide (((splitArrow k).2 ++ '→' :: (splitArrow k).1) ∈
            (jsSetOfList (pairsOf es)).map keyOfPair) &&
          jsStrLt (splitArrow k).1 (splitArrow k).2) ∘ keyOfPair) p = true ↔
        (decide ((p.2, p.1) ∈ (pairsOf es).toFinset) && jsStrLt p.1.data p.2.data) = true := by
      intro p hp
      rw [mem_jsSetOfList] at hp
      obtain ⟨hp1, hp2⟩ := hpair p hp
      have hmem : (p.2.data ++ '→' :: p.1.data) ∈ (jsSetOfList (pairsOf es)).map keyOfPair ↔
          (p.2, p.1) ∈ (pairsOf es).toFinset := by
        rw [List.mem_toFinset]
        constructor
        · intro hm
          rcases List.mem_map.mp hm with ⟨q, hq, hqk⟩
          rw [mem_jsSetOfList] at hq
          obtain ⟨hq1, _⟩ := hpair q hq
          obtain ⟨h1, h2⟩ := arrow_encode_inj q.1.data p.2.data q.2.data p.1.data hq1 hp2 hqk
          have hqe : q = (p.2, p.1) := Prod.ext (String.ext h1) (String.ext h2)
          exact hqe ▸ hq
        · intro hm
          have : (p.2, p.1) ∈ jsSetOfList (pairsOf es) := (mem_jsSetOfList _ _).mpr hm
          exact List.mem_map_of_mem keyOfPair this
      simp only [Function.comp_apply, keyOfPair]
      simp only [splitArrow_encode p.1.data p.2.data hp1 hp2]
      simp only [Bool.and_eq_true, decide_eq_true_eq]
      constructor
      · rintro ⟨hm, hlt⟩
        exact ⟨hmem.mp hm, hlt⟩
      · rintro ⟨hm, hlt⟩
        exact ⟨hmem.mpr hm, hlt⟩
    rw [List.countP_congr hcongr]
    -- count over the nodup set equals the Finset cardinality
    have hnd : (jsSetOfList (pairsOf es)).Nodup := nodup_jsSetOfList (pairsOf es)
    rw [List.countP_eq_length_filter]
    rw [← List.toFinset_card_of_nodup (hnd.filter _)]
    congr 1
    ext p
    simp only [List.mem_toFinset, List.mem_filter, mem_jsSetOfList, recipPairSet,
      Finset.mem_filter, List.mem_toFinset, Bool.and_eq_true, decide_eq_true_eq]
    constructor
    · rintro ⟨hmem, hrev, hlt⟩
      exact ⟨hmem, hlt, by simpa using hrev⟩
    · rintro ⟨hmem, hlt, hrev⟩
      exact ⟨hmem, by simpa using hrev, hlt⟩
  · intro es es' hp
    have hkeysperm : (es.map recipKey).Perm (es'.map recipKey) := hp.map recipKey
    have hmemiff : ∀ k : List Char,
        k ∈ jsSetOfList (es.map recipKey) ↔ k ∈ jsSetOfList (es'.map recipKey) := by
      intro k
      rw [mem_jsSetOfList, mem_jsSetOfList]
      exact hkeysperm.mem_iff
    have hsetperm : (jsSetOfList (es.map recipKey)).Perm (jsSetOfList (es'.map recipKey)) :=
      (List.perm_ext_iff_of_nodup (nodup_jsSetOfList _) (nodup_jsSetOfList _)).mpr hmemiff
    unfold reciprocalPairsOf
    rw [List.countP_congr (q := fun k =>
      decide (((splitArrow k).2 ++ '→' :: (splitArrow k).1) ∈
        jsSetOfList (es'.map recipKey)) && jsStrLt (splitArrow k).1 (splitArrow k).2)
      (fun k _ => by simp only [Bool.and_eq_true, decide_eq_true_eq, hmemiff])]
    exact hsetperm.countP_eq _

/-- C7, witness: the amended statement applied to a concrete two-edge
mutual pair list without separator characters. -/
theorem c7_amended_reciprocity_witness :
    ArrowFree [({ s := "A", t := "B" } : RawEdge), { s := "B", t := "A" }] ∧
    reciprocalPairsOf [({ s := "A", t := "B" } : RawEdge), { s := "B", t := "A" }] =
      (recipPairSet [({ s := "A", t := "B" } : RawEdge), { s := "B", t := "A" }]).card ∧
    ([({ s := "A", t := "B" } : RawEdge), { s := "B", t := "A" }]).Perm
      [({ s := "B", t := "A" } : RawEdge), { s := "A", t := "B" }] ∧
    reciprocalPairsOf [({ s := "A", t := "B" } : RawEdge), { s := "B", t := "A" }] =
      reciprocalPairsOf [({ s := "B", t := "A" } : RawEdge), { s := "A", t := "B" }] :=
  ⟨by unfold ArrowFree; decide, c7_amended_reciprocity.1 _ (by unfold ArrowFree; decide),
   List.Perm.swap _ _ _,
   c7_amended_reciprocity.2 _ _ (List.Perm.swap _ _ _)⟩

/-! ## Claim C6 (strongly connected components) -/

/-- `strongConnect` with positive fuel, re-expressed through the named
phases; definitional. -/
theorem strongConnect_succ (adj : String → List String) (fuel : Nat) (v : String)
    (st : TarjanSt) :
    strongConnect adj (fuel + 1) v st =
      (if mget ((adj v).foldl (sccStep adj fuel v) (pushSt v st)).lowMap v =
          mget ((adj v).foldl (sccStep adj fuel v) (pushSt v st)).idxMap v
       then popSt v ((adj v).foldl (sccStep adj fuel v) (pushSt v st))
       else (adj v).foldl (sccStep adj fuel v) (pushSt v st)) := rfl

theorem mget_mset_self (m : List (String × Nat)) (k : String) (n : Nat) :
    mget (mset m k n) k = some n := by
  simp [mget, mset, List.lookup]

theorem mget_mset_ne (m : List (String × Nat)) (k k' : String) (n : Nat) (h : k' ≠ k) :
    mget (mset m k n) k' = mget m k' := by
  simp [mget, mset, List.lookup, beq_false_of_ne h]

/-- Popping down to `v` when the on-stack list mirrors the stack. -/
theorem popComp_eq (v : String) (rest : List String) :
    ∀ (Δ comp : List String), v ∉ Δ →
      popComp v (Δ ++ v :: rest) (Δ ++ v :: rest) comp = (rest, rest, comp ++ (Δ ++ [v]))
  | [], comp, _ => by
    simp [popComp, List.erase_cons_head]
  | d :: Δ, comp, h => by
    have hd : d ≠ v := fun he => h (by simp [he])
    have hΔ : v ∉ Δ := fun he => h (by simp [he])
    simp only [List.cons_append, popComp, if_neg hd, List.erase_cons_head, List.append_eq]
    rw [popComp_eq v rest Δ (comp ++ [d]) hΔ]
    simp

/-- Unvisited counts only shrink as the index map grows. -/
theorem countU_le (U : List String) (s s' : TarjanSt)
    (h : ∀ x n, mget s.idxMap x = some n → mget s'.idxMap x = some n) :
    countU U s' ≤ countU U s := by
  apply Finset.card_le_card
  intro x hx
  rw [Finset.mem_filter] at hx ⊢
  refine ⟨hx.1, ?_⟩
  have hx2 := hx.2
  by_contra hc
  rw [Bool.not_eq_false, Option.isSome_iff_exists] at hc
  obtain ⟨n, hn⟩ := hc
  rw [h x n hn] at hx2
  simp at hx2

/-- Indexing a fresh vertex of the universe strictly shrinks the
unvisited count. -/
theorem countU_lt (U : List String) (s s' : TarjanSt) (v : String) (n : Nat)
    (hv : v ∈ U) (hnew : (mget s.idxMap v).isSome = false)
    (hmap : s'.idxMap = mset s.idxMap v n) :
    countU U s' < countU U s := by
  apply Finset.card_lt_card
  constructor
  · intro x hx
    rw [Finset.mem_filter] at hx ⊢
    refine ⟨hx.1, ?_⟩
    rcases eq_or_ne x v with rfl | hne
    · rw [hmap, mget_mset_self] at hx
      simp at hx
    · rw [hmap, mget_mset_ne _ _ _ _ hne] at hx
      exact hx.2
  · intro hsub
    have hvmem : v ∈ U.toFinset.filter (fun x => (mget s.idxMap x).isSome = false) := by
      rw [Finset.mem_filter]
      exact ⟨List.mem_toFinset.mpr hv, hnew⟩
    have := hsub hvmem
    rw [Finset.mem_filter, hmap, mget_mset_self] at this
    simp at this

/-- The descent along low-link witnesses: on a stack `Δ ++ v :: rest`
where every vertex of `Δ` has a strictly smaller low-link than its index
and every vertex of `rest` reaches `v`, every vertex of `Δ` reaches `v`. -/
theorem lowlink_descent (adj : String → List String) (U : List String) (st : TarjanSt)
    (wfst : TarjanWF adj U st) (Δ : List String) (v : String) (rest : List String)
    (hstack : st.stack = Δ ++ v :: rest)
    (hΔstrict : ∀ x ∈ Δ, ∃ lx nx, mget st.lowMap x = some lx ∧
      mget st.idxMap x = some nx ∧ lx < nx)
    (hrest : ∀ y ∈ rest, reachOf adj y v) :
    ∀ x ∈ Δ, reachOf adj x v := by
  have H : ∀ n x, x ∈ Δ → mget st.idxMap x = some n → reachOf adj x v := by
    intro n
    induction n using Nat.strong_induction_on with
    | _ n ih =>
      intro x hxΔ hnum
      have hxstack : x ∈ st.stack := by rw [hstack]; exact List.mem_append_left _ hxΔ
      obtain ⟨nx, lx, y, hnx, hlx, hle, hystack, hynum, hreach⟩ := wfst.low_wit x hxstack
      obtain ⟨lx', nx', hlx', hnx', hlt⟩ := hΔstrict x hxΔ
      rw [hnum] at hnx hnx'
      rw [hlx] at hlx'
      obtain rfl : n = nx := Option.some_injective _ hnx
      obtain rfl : n = nx' := Option.some_injective _ hnx'
      obtain rfl : lx = lx' := Option.some_injective _ hlx'
      rw [hstack] at hystack
      rcases List.mem_append.mp hystack with hyΔ | hyrest
      · exact hreach.trans (ih lx hlt y hyΔ hynum)
      · rcases List.mem_cons.mp hyrest with rfl | hyr
        · exact hreach
        · exact hreach.trans (hrest y hyr)
  intro x hx
  have hxstack : x ∈ st.stack := by rw [hstack]; exact List.mem_append_left _ hx
  have := wfst.stack_visited x hxstack
  rw [Option.isSome_iff_exists] at this
  obtain ⟨n, hn⟩ := this
  exact H n x hx hn

/-- The escape chase: a set `S` of stack vertices, closed upward in index
and whose out-edges stay in `S` or in an assigned component, contains
every vertex mutually reachable with one of its members. -/
theorem escape_chase (adj : String → List String) (U : List String) (st : TarjanSt)
    (wfst : TarjanWF adj U st) (S : List String) (nv : Nat)
    (hSsub : ∀ x ∈ S, x ∈ st.stack)
    (hSchar : ∀ z, z ∈ st.stack → (∃ n, mget st.idxMap z = some n ∧ nv ≤ n) → z ∈ S)
    (hesc : ∀ z ∈ S, ∀ y ∈ adj z, (mget st.idxMap y).isSome = true ∧
      (y ∈ st.comps.flatten ∨ ∃ ny, mget st.idxMap y = some ny ∧ nv ≤ ny)) :
    ∀ x ∈ S, ∀ y, reachOf adj x y → reachOf adj y x → y ∈ S := by
  intro x hx y hxy hyx
  have claim : ∀ z, reachOf adj z y → z ∈ S → reachOf adj x z → y ∈ S := by
    intro z hzy
    induction hzy using Relation.ReflTransGen.head_induction_on with
    | refl => exact fun hz _ => hz
    | head h' h ih =>
      rename_i a c
      intro ha hxa
      have hstep := hesc a ha c h'
      have hxc : reachOf adj x c := hxa.tail h'
      have hcx : reachOf adj c x := Relation.ReflTransGen.trans h hyx
      rcases hstep.2 with hass | ⟨nc, hnc, hge⟩
      · exfalso
        rw [List.mem_flatten] at hass
        obtain ⟨comp, hcomp, hcmem⟩ := hass
        have hclosed := (wfst.comps_ok comp hcomp).2.2
        have hxcomp : x ∈ comp := hclosed c hcmem x hcx hxc
        have hxstack := hSsub x hx
        exact wfst.stack_not_assigned x hxstack
          (List.mem_flatten.mpr ⟨comp, hcomp, hxcomp⟩)
      · have hcvis : (mget st.idxMap c).isSome = true := hstep.1
        rcases wfst.visited_cases c hcvis with hcstack | hass
        · exact ih (hSchar c hcstack ⟨nc, hnc, hge⟩) hxc
        · exfalso
          rw [List.mem_flatten] at hass
          obtain ⟨comp, hcomp, hcmem⟩ := hass
          have hclosed := (wfst.comps_ok comp hcomp).2.2
          have hxcomp : x ∈ comp := hclosed c hcmem x hcx hxc
          have hxstack := hSsub x hx
          exact wfst.stack_not_assigned x hxstack
            (List.mem_flatten.mpr ⟨comp, hcomp, hxcomp⟩)
  exact claim x hxy hx Relation.ReflTransGen.refl



/-- The initial Tarjan state satisfies the invariant. -/
theorem tarjanWF_init (adj : String → List String) (U : List String) :
    TarjanWF adj U ⟨0, [], [], [], [], []⟩ := by
  constructor <;> simp [mget]

/-- Entering `strongConnect` on a fresh vertex establishes the loop
invariant. -/
theorem scEntry (adj : String → List String) (U : List String) (v : String)
    (s0 : TarjanSt) (wf0 : TarjanWF adj U s0)
    (hnv : (mget s0.idxMap v).isSome = false) (hvU : v ∈ U)
    (hacc : ∀ y ∈ s0.stack, reachOf adj y v) :
    SCLoopInv adj U v s0 (pushSt v s0) := by
  have hvs : v ∉ s0.stack := fun hm => by
    rw [wf0.stack_visited v hm] at hnv; exact absurd hnv (by simp)
  have hne : ∀ x ∈ s0.stack, x ≠ v := fun x hx he => hvs (he ▸ hx)
  have hidx : (pushSt v s0).idxMap = mset s0.idxMap v s0.index := rfl
  have hlow : (pushSt v s0).lowMap = mset s0.lowMap v s0.index := rfl
  have hstk : (pushSt v s0).stack = v :: s0.stack := rfl
  have hnumpres : ∀ x n, mget s0.idxMap x = some n → mget (pushSt v s0).idxMap x = some n := by
    intro x n hx
    have hxv : x ≠ v := fun he => by rw [← he] at hnv; rw [hx] at hnv; exact absurd hnv (by simp)
    rw [hidx, mget_mset_ne _ _ _ _ hxv]; exact hx
  refine ⟨?_, ⟨[], by simp [hstk], by simp, by simp⟩, ?_, hnumpres, ⟨[], by simp [pushSt]⟩,
    ?_, ?_, ?_, ?_, ?_, ?_, ?_, ?_⟩
  · -- the invariant after the push
    constructor
    · show v :: s0.onStack = v :: s0.stack
      rw [wf0.onstack_eq]
    · exact List.nodup_cons.mpr ⟨hvs, wf0.stack_nodup⟩
    · intro x hx
      rcases List.mem_cons.mp hx with rfl | hx
      · rw [hidx, mget_mset_self]; rfl
      · rw [hidx, mget_mset_ne _ _ _ _ (hne x hx)]; exact wf0.stack_visited x hx
    · intro x hx
      rcases List.mem_cons.mp hx with rfl | hx
      · intro hass
        rw [wf0.assigned_visited x hass] at hnv; exact absurd hnv (by simp)
      · exact wf0.stack_not_assigned x hx
    · intro x hx
      rcases eq_or_ne x v with rfl | hxv
      · exact Or.inl (List.mem_cons_self _ _)
      · rw [hidx, mget_mset_ne _ _ _ _ hxv] at hx
        rcases wf0.visited_cases x hx with hs | ha
        · exact Or.inl (List.mem_cons_of_mem _ hs)
        · exact Or.inr ha
    · intro x hx
      rcases eq_or_ne x v with rfl | hxv
      · rw [hidx, mget_mset_self]; rfl
      · rw [hidx, mget_mset_ne _ _ _ _ hxv]; exact wf0.assigned_visited x hx
    · intro x n hx
      show n < s0.index + 1
      rcases eq_or_ne x v with rfl | hxv
      · rw [hidx, mget_mset_self] at hx
        obtain rfl : s0.index = n := Option.some_injective _ hx
        omega
      · rw [hidx, mget_mset_ne _ _ _ _ hxv] at hx
        have := wf0.num_lt_index x n hx
        omega
    · intro x w n hx hw
      rcases eq_or_ne v x with rfl | hvx
      · rcases eq_or_ne v w with rfl | hvw
        · rfl
        · rw [hidx, mget_mset_self] at hx
          rw [hidx, mget_mset_ne _ _ _ _ (Ne.symm hvw)] at hw
          have := wf0.num_lt_index w n hw
          obtain rfl : s0.index = n := Option.some_injective _ hx
          omega
      · rcases eq_or_ne v w with rfl | hvw
        · rw [hidx, mget_mset_self] at hw
          rw [hidx, mget_mset_ne _ _ _ _ (Ne.symm hvx)] at hx
          have := wf0.num_lt_index x n hx
          obtain rfl : s0.index = n := Option.some_injective _ hw
          omega
        · rw [hidx, mget_mset_ne _ _ _ _ (Ne.symm hvx)] at hx
          rw [hidx, mget_mset_ne _ _ _ _ (Ne.symm hvw)] at hw
          exact wf0.num_inj x w n hx hw
    · intro x hxm y hym nx ny hx hy hle
      rcases List.mem_cons.mp hxm with rfl | hxs
      · rcases List.mem_cons.mp hym with rfl | hys
        · exact Relation.ReflTransGen.refl
        · rw [hidx, mget_mset_self] at hx
          rw [hidx, mget_mset_ne _ _ _ _ (hne y hys)] at hy
          have := wf0.num_lt_index y ny hy
          obtain rfl : s0.index = nx := Option.some_injective _ hx
          omega
      · rcases List.mem_cons.mp hym with rfl | hys
        · exact hacc x hxs
        · rw [hidx, mget_mset_ne _ _ _ _ (hne x hxs)] at hx
          rw [hidx, mget_mset_ne _ _ _ _ (hne y hys)] at hy
          exact wf0.stack_reach x hxs y hys nx ny hx hy hle
    · intro x hxm
      rcases List.mem_cons.mp hxm with rfl | hxs
      · exact ⟨s0.index, s0.index, x, by rw [hidx, mget_mset_self],
          by rw [hlow, mget_mset_self], le_refl _, List.mem_cons_self _ _,
          by rw [hidx, mget_mset_self], Relation.ReflTransGen.refl⟩
      · obtain ⟨nx, lx, y, h1, h2, h3, h4, h5, h6⟩ := wf0.low_wit x hxs
        exact ⟨nx, lx, y, by rw [hidx, mget_mset_ne _ _ _ _ (hne x hxs)]; exact h1,
          by rw [hlow, mget_mset_ne _ _ _ _ (hne x hxs)]; exact h2, h3,
          List.mem_cons_of_mem _ h4,
          by rw [hidx, mget_mset_ne _ _ _ _ (hne y h4)]; exact h5, h6⟩
    · exact wf0.comps_ok
    · intro x hx
      rcases eq_or_ne x v with rfl | hxv
      · exact hvU
      · rw [hidx, mget_mset_ne _ _ _ _ hxv] at hx
        exact wf0.visited_mem x hx
  · rw [hidx, mget_mset_self]
  · exact Nat.lt_succ_self _
  · intro x n hx0 hx
    rcases eq_or_ne x v with rfl | hxv
    · rw [hidx, mget_mset_self] at hx
      obtain rfl : s0.index = n := Option.some_injective _ hx
      exact le_refl _
    · rw [hidx, mget_mset_ne _ _ _ _ hxv] at hx
      rw [hx] at hx0
      exact absurd hx0 (by simp)
  · intro x hx
    have hxv : x ≠ v := fun he => by rw [he] at hx; rw [hx] at hnv; exact absurd hnv (by simp)
    rw [hlow, mget_mset_ne _ _ _ _ hxv]
  · intro x hx0 hx
    rcases eq_or_ne x v with rfl | hxv
    · exact Relation.ReflTransGen.refl
    · rw [hidx, mget_mset_ne _ _ _ _ hxv] at hx
      rw [hx] at hx0
      exact absurd hx0 (by simp)
  · exact ⟨s0.index, by rw [hlow, mget_mset_self], le_refl _⟩
  · intro x hx0 hxm
    rcases List.mem_cons.mp hxm with rfl | hxs
    · exact ⟨s0.index, s0.index, by rw [hlow, mget_mset_self],
        by rw [hlow, mget_mset_self], le_refl _⟩
    · rw [wf0.stack_visited x hxs] at hx0
      exact absurd hx0 (by simp)
  · intro x hx0 hx hxv
    exfalso
    apply hxv
    by_contra hne2
    rw [hidx, mget_mset_ne _ _ _ _ hne2] at hx
    rw [hx] at hx0
    exact absurd hx0 (by simp)
  · exact countU_lt U s0 _ v s0.index hvU hnv hidx


/-- Splitting a nodup stack at a distinguished vertex. -/
theorem nodup_mid (Δ : List String) (v : String) (rest : List String)
    (h : (Δ ++ v :: rest).Nodup) : v ∉ Δ ∧ v ∉ rest := by
  rw [List.nodup_append] at h
  exact ⟨fun hm => h.2.2 hm (List.mem_cons_self _ _),
    fun hm => (List.nodup_cons.mp h.2.1).1 hm⟩

/-- Rebinding the low-link of a stack vertex preserves the invariant,
provided the new value keeps a reachable stack witness. -/
theorem tarjanWF_relow (adj : String → List String) (U : List String) (st : TarjanSt)
    (wfst : TarjanWF adj U st) (v : String) (l : Nat)
    (hwit : ∃ nv y, mget st.idxMap v = some nv ∧ l ≤ nv ∧ y ∈ st.stack ∧
      mget st.idxMap y = some l ∧ reachOf adj v y) :
    TarjanWF adj U { st with lowMap := mset st.lowMap v l } := by
  obtain ⟨nv, y0, hnv, hlnv, hy0, hy0num, hy0reach⟩ := hwit
  refine ⟨wfst.onstack_eq, wfst.stack_nodup, wfst.stack_visited,
    wfst.stack_not_assigned, wfst.visited_cases, wfst.assigned_visited,
    wfst.num_lt_index, wfst.num_inj, wfst.stack_reach, ?_, wfst.comps_ok,
    wfst.visited_mem⟩
  intro x hx
  rcases eq_or_ne v x with rfl | hvx
  · exact ⟨nv, l, y0, hnv, by show mget (mset st.lowMap v l) v = some l; rw [mget_mset_self],
      hlnv, hy0, hy0num, hy0reach⟩
  · obtain ⟨nx, lx, y, h1, h2, h3, h4, h5, h6⟩ := wfst.low_wit x hx
    exact ⟨nx, lx, y, h1,
      by show mget (mset st.lowMap v l) x = some lx
         rw [mget_mset_ne _ _ _ _ (Ne.symm hvx)]; exact h2, h3, h4, h5, h6⟩

theorem scEvolve_refl (v : String) (s : TarjanSt) : SCEvolve v s s :=
  ⟨fun _ _ h => h, ⟨[], by simp⟩, fun lv h => ⟨lv, h, le_refl _⟩⟩

theorem scEvolve_trans (v : String) (s1 s2 s3 : TarjanSt)
    (h12 : SCEvolve v s1 s2) (h23 : SCEvolve v s2 s3) : SCEvolve v s1 s3 := by
  refine ⟨fun x n h => h23.num_pres x n (h12.num_pres x n h), ?_, ?_⟩
  · obtain ⟨c1, hc1⟩ := h12.comps_ext
    obtain ⟨c2, hc2⟩ := h23.comps_ext
    exact ⟨c1 ++ c2, by rw [hc2, hc1, List.append_assoc]⟩
  · intro lv h
    obtain ⟨lv2, h2, hle2⟩ := h12.low_v_le lv h
    obtain ⟨lv3, h3, hle3⟩ := h23.low_v_le lv2 h2
    exact ⟨lv3, h3, le_trans hle3 hle2⟩

theorem edgeBound_mono (v : String) (s s' : TarjanSt) (y : String)
    (hev : SCEvolve v s s') (hb : EdgeBound v s y) : EdgeBound v s' y := by
  obtain ⟨hvis, hrest⟩ := hb
  rw [Option.isSome_iff_exists] at hvis
  obtain ⟨n, hn⟩ := hvis
  refine ⟨by rw [hev.num_pres y n hn]; rfl, ?_⟩
  rcases hrest with hass | ⟨ny, lv, hny, hlv, hle⟩
  · obtain ⟨c, hc⟩ := hev.comps_ext
    exact Or.inl (by rw [hc, List.flatten_append]; exact List.mem_append_left _ hass)
  · obtain ⟨lv', hlv', hle'⟩ := hev.low_v_le lv hlv
    exact Or.inr ⟨ny, lv', hev.num_pres y ny hny, hlv', le_trans hle' hle⟩



/-- `countU` reads only the index map. -/
theorem countU_congr (U : List String) (s s' : TarjanSt) (h : s.idxMap = s'.idxMap) :
    countU U s = countU U s' := by
  unfold countU; rw [h]

/-- Branch A of the successor loop: the successor was fresh, the
recursive call returned with its postcondition, and the caller folds the
callee low-link into its own. -/
theorem sccStepA (adj : String → List String) (U : List String) (v : String)
    (s0 s s' : TarjanSt) (w : String) (hw : w ∈ adj v)
    (hinv : SCLoopInv adj U v s0 s) (hnv0 : (mget s0.idxMap v).isSome = false)
    (hwnew : (mget s.idxMap w).isSome = false)
    (post : SCPost adj U w s s')
    (lv lw : Nat) (hlv : mget s.lowMap v = some lv) (hlw : mget s'.lowMap w = some lw) :
    SCLoopInv adj U v s0 { s' with lowMap := mset s'.lowMap v (min lv lw) } ∧
      SCEvolve v s { s' with lowMap := mset s'.lowMap v (min lv lw) } ∧
      EdgeBound v { s' with lowMap := mset s'.lowMap v (min lv lw) } w := by
  obtain ⟨Δ, hstack, hΔnew, hΔstrict⟩ := hinv.shape
  have hnodup := hinv.wf.stack_nodup
  rw [hstack] at hnodup
  obtain ⟨hvΔ, hvrest⟩ := nodup_mid Δ v s0.stack hnodup
  obtain ⟨lv2, hlv2, hlvle⟩ := hinv.low_v
  obtain rfl : lv = lv2 := Option.some_injective _ (hlv.symm.trans hlv2)
  have hvvis : (mget s.idxMap v).isSome = true := by rw [hinv.num_v]; rfl
  have hvnes : ∀ x, (mget s.idxMap x).isSome = false → x ≠ v := by
    intro x hx he; rw [he, hvvis] at hx; exact absurd hx (by simp)
  have hvne0 : ∀ x, (mget s0.idxMap x).isSome = true → x ≠ v := by
    intro x hx he; rw [he, hnv0] at hx; exact absurd hx (by simp)
  have hnewpres : ∀ x, (mget s.idxMap x).isSome = false → (mget s0.idxMap x).isSome = false := by
    intro x hx
    by_contra hcc
    rw [Bool.not_eq_false, Option.isSome_iff_exists] at hcc
    obtain ⟨n, hn⟩ := hcc
    rw [hinv.num_mono x n hn] at hx
    exact absurd hx (by simp)
  have hvispres : ∀ x, (mget s.idxMap x).isSome = true → (mget s'.idxMap x).isSome = true := by
    intro x hx
    rw [Option.isSome_iff_exists] at hx
    obtain ⟨n, hn⟩ := hx
    rw [post.num_mono x n hn]; rfl
  obtain ⟨lw2, hlw2, hlwle⟩ := post.low_le
  obtain rfl : lw = lw2 := Option.some_injective _ (hlw.symm.trans hlw2)
  have hlv' : mget s'.lowMap v = some lv := by
    rw [post.low_frozen v hvvis]; exact hlv
  have hsmem : ∀ x ∈ s.stack, x ∈ s'.stack := by
    intro x hx
    rcases post.stack_shape with ⟨hseq, _, _⟩ | ⟨Δw, hseq, _, _⟩
    · rw [hseq]; exact hx
    · rw [hseq]; exact List.mem_append_right _ (List.mem_cons_of_mem _ hx)
  have hnumv' : mget s'.idxMap v = some s0.index := post.num_mono v _ hinv.num_v
  have hwit : ∃ nv y, mget s'.idxMap v = some nv ∧ min lv lw ≤ nv ∧ y ∈ s'.stack ∧
      mget s'.idxMap y = some (min lv lw) ∧ reachOf adj v y := by
    rcases le_total lv lw with hmin | hmin
    · rw [min_eq_left hmin]
      have hvstk : v ∈ s.stack := by rw [hstack]; exact List.mem_append_right _ (List.mem_cons_self _ _)
      obtain ⟨nx, lx, y, h1, h2, h3, h4, h5, h6⟩ := hinv.wf.low_wit v hvstk
      obtain rfl : lv = lx := Option.some_injective _ (hlv.symm.trans h2)
      exact ⟨s0.index, y, hnumv', le_trans (le_refl _) hlvle, hsmem y h4,
        post.num_mono y lv h5, h6⟩
    · rw [min_eq_right hmin]
      rcases post.stack_shape with ⟨hseq, hwass, hloweq⟩ | ⟨Δw, hseq, hΔwnew, hΔwstrict⟩
      · exfalso
        rw [hlw, post.num_v] at hloweq
        obtain rfl : lw = s.index := Option.some_injective _ hloweq
        have := hinv.index_mono
        omega
      · have hwstk' : w ∈ s'.stack := by
          rw [hseq]; exact List.mem_append_right _ (List.mem_cons_self _ _)
        obtain ⟨nw, lw2, y, h1, h2, h3, h4, h5, h6⟩ := post.wf.low_wit w hwstk'
        obtain rfl : lw = lw2 := Option.some_injective _ (hlw.symm.trans h2)
        exact ⟨s0.index, y, hnumv', le_trans hmin hlvle, h4, h5,
          Relation.ReflTransGen.trans (Relation.ReflTransGen.single hw) h6⟩
  have hev : SCEvolve v s { s' with lowMap := mset s'.lowMap v (min lv lw) } := by
    refine ⟨post.num_mono, post.comps_mono, ?_⟩
    intro lv0 h0
    obtain rfl : lv = lv0 := Option.some_injective _ (hlv.symm.trans h0)
    exact ⟨min lv lw, mget_mset_self _ _ _, min_le_left _ _⟩
  refine ⟨⟨?_, ?_, ?_, ?_, ?_, ?_, ?_, ?_, ?_, ?_, ?_, ?_, ?_⟩, hev, ?_⟩
  · -- wf
    exact tarjanWF_relow adj U s' post.wf v (min lv lw) hwit
  · -- shape
    rcases post.stack_shape with ⟨hseq, hwass, hloweq⟩ | ⟨Δw, hseq, hΔwnew, hΔwstrict⟩
    · refine ⟨Δ, by show s'.stack = _; rw [hseq, hstack], hΔnew, ?_⟩
      intro x hx
      obtain ⟨lx, nx, h1, h2, h3⟩ := hΔstrict x hx
      have hxvis : (mget s.idxMap x).isSome = true :=
        hinv.wf.stack_visited x (by rw [hstack]; exact List.mem_append_left _ hx)
      have hxv : x ≠ v := fun he => hvΔ (he ▸ hx)
      refine ⟨lx, nx, ?_, post.num_mono x nx h2, h3⟩
      show mget (mset s'.lowMap v (min lv lw)) x = some lx
      rw [mget_mset_ne _ _ _ _ hxv, post.low_frozen x hxvis]
      exact h1
    · refine ⟨Δw ++ w :: Δ, ?_, ?_, ?_⟩
      · show s'.stack = _
        rw [hseq, hstack]
        simp [List.append_assoc]
      · intro x hx
        rcases List.mem_append.mp hx with hxw | hxc
        · exact hnewpres x (hΔwnew x hxw)
        · rcases List.mem_cons.mp hxc with rfl | hxΔ
          · exact hnewpres x hwnew
          · exact hΔnew x hxΔ
      · intro x hx
        rcases List.mem_append.mp hx with hxw | hxc
        · obtain ⟨lx, nx, h1, h2, h3⟩ := hΔwstrict x (Or.inl hxw)
          have hxv : x ≠ v := hvnes x (hΔwnew x hxw)
          refine ⟨lx, nx, ?_, h2, h3⟩
          show mget (mset s'.lowMap v (min lv lw)) x = some lx
          rw [mget_mset_ne _ _ _ _ hxv]; exact h1
        · rcases List.mem_cons.mp hxc with rfl | hxΔ
          · obtain ⟨lx, nx, h1, h2, h3⟩ := hΔwstrict x (Or.inr rfl)
            have hxv : x ≠ v := hvnes x hwnew
            refine ⟨lx, nx, ?_, h2, h3⟩
            show mget (mset s'.lowMap v (min lv lw)) x = some lx
            rw [mget_mset_ne _ _ _ _ hxv]; exact h1
          · obtain ⟨lx, nx, h1, h2, h3⟩ := hΔstrict x hxΔ
            have hxvis : (mget s.idxMap x).isSome = true :=
              hinv.wf.stack_visited x (by rw [hstack]; exact List.mem_append_left _ hxΔ)
            have hxv : x ≠ v := fun he => hvΔ (he ▸ hxΔ)
            refine ⟨lx, nx, ?_, post.num_mono x nx h2, h3⟩
            show mget (mset s'.lowMap v (min lv lw)) x = some lx
            rw [mget_mset_ne _ _ _ _ hxv, post.low_frozen x hxvis]
            exact h1
  · -- num_v
    exact hnumv'
  · -- num_mono
    exact fun x n h => post.num_mono x n (hinv.num_mono x n h)
  · -- comps_mono
    obtain ⟨c1, hc1⟩ := hinv.comps_mono
    obtain ⟨c2, hc2⟩ := post.comps_mono
    exact ⟨c1 ++ c2, by show s'.comps = _; rw [hc2, hc1, List.append_assoc]⟩
  · -- index_mono
    exact lt_trans hinv.index_mono post.index_mono
  · -- num_new_ge
    intro x n hx0 hx
    by_cases hxs : (mget s.idxMap x).isSome = true
    · rw [Option.isSome_iff_exists] at hxs
      obtain ⟨m, hm⟩ := hxs
      have := post.num_mono x m hm
      obtain rfl : m = n := Option.some_injective _ (this.symm.trans hx)
      exact hinv.num_new_ge x m hx0 hm
    · rw [Bool.not_eq_true] at hxs
      exact le_trans (le_of_lt hinv.index_mono) (post.num_new_ge x n hxs hx)
  · -- low_frozen
    intro x hx0
    have hxs : (mget s.idxMap x).isSome = true := by
      rw [Option.isSome_iff_exists] at hx0
      obtain ⟨n, hn⟩ := hx0
      rw [hinv.num_mono x n hn]; rfl
    have hxv : x ≠ v := hvne0 x hx0
    show mget (mset s'.lowMap v (min lv lw)) x = mget s0.lowMap x
    rw [mget_mset_ne _ _ _ _ hxv, post.low_frozen x hxs, hinv.low_frozen x hx0]
  · -- reach_new
    intro x hx0 hx
    by_cases hxs : (mget s.idxMap x).isSome = true
    · exact hinv.reach_new x hx0 hxs
    · rw [Bool.not_eq_true] at hxs
      exact Relation.ReflTransGen.trans (Relation.ReflTransGen.single hw)
        (post.reach_new x hxs hx)
  · -- low_v
    exact ⟨min lv lw, mget_mset_self _ _ _, le_trans (min_le_left _ _) hlvle⟩
  · -- subtree_low
    intro x hx0 hxstk
    rcases eq_or_ne x v with rfl | hxv
    · exact ⟨min lv lw, min lv lw, mget_mset_self _ _ _, mget_mset_self _ _ _, le_refl _⟩
    · by_cases hxs : (mget s.idxMap x).isSome = true
      · have hxsmem : x ∈ s.stack := by
          rcases post.stack_shape with ⟨hseq, _, _⟩ | ⟨Δw, hseq, hΔwnew, _⟩
          · rw [← hseq]; exact hxstk
          · rw [hseq] at hxstk
            rcases List.mem_append.mp hxstk with hxw | hxc
            · exact absurd (hΔwnew x hxw) (by rw [hxs]; simp)
            · rcases List.mem_cons.mp hxc with rfl | hxm
              · exact absurd hwnew (by rw [hxs]; simp)
              · exact hxm
        obtain ⟨lx, lv2, h1, h2, h3⟩ := hinv.subtree_low x hx0 hxsmem
        obtain rfl : lv = lv2 := Option.some_injective _ (hlv.symm.trans h2)
        refine ⟨lx, min lv lw, ?_, mget_mset_self _ _ _,
          le_trans (min_le_left _ _) h3⟩
        show mget (mset s'.lowMap v (min lv lw)) x = some lx
        rw [mget_mset_ne _ _ _ _ hxv, post.low_frozen x hxs]
        exact h1
      · rw [Bool.not_eq_true] at hxs
        obtain ⟨lx, lw2, h1, h2, h3⟩ := post.subtree_low x hxs hxstk
        obtain rfl : lw = lw2 := Option.some_injective _ (hlw.symm.trans h2)
        refine ⟨lx, min lv lw, ?_, mget_mset_self _ _ _,
          le_trans (min_le_right _ _) h3⟩
        show mget (mset s'.lowMap v (min lv lw)) x = some lx
        rw [mget_mset_ne _ _ _ _ hxv]
        exact h1
  · -- escape
    intro x hx0 hx hxv y hy
    by_cases hxs : (mget s.idxMap x).isSome = true
    · have hb := hinv.escape x hx0 hxs hxv y hy
      exact edgeBound_mono v s _ y hev hb
    · rw [Bool.not_eq_true] at hxs
      have hb := post.escape x hxs hx y hy
      obtain ⟨hyvis, hrest⟩ := hb
      refine ⟨hyvis, ?_⟩
      rcases hrest with hass | ⟨ny, lw2, hny, hlw2, hle⟩
      · exact Or.inl hass
      · obtain rfl : lw = lw2 := Option.some_injective _ (hlw.symm.trans hlw2)
        exact Or.inr ⟨ny, min lv lw, hny, mget_mset_self _ _ _,
          le_trans (min_le_right _ _) hle⟩
  · -- count_lt
    have h1 : countU U { s' with lowMap := mset s'.lowMap v (min lv lw) } = countU U s' :=
      countU_congr U _ _ rfl
    rw [h1]
    exact lt_trans post.count_lt hinv.count_lt
  · -- EdgeBound for w
    constructor
    · show (mget s'.idxMap w).isSome = true
      rw [post.num_v]; rfl
    · rcases post.stack_shape with ⟨hseq, hwass, hloweq⟩ | ⟨Δw, hseq, hΔwnew, hΔwstrict⟩
      · exact Or.inl hwass
      · exact Or.inr ⟨s.index, min lv lw, post.num_v, mget_mset_self _ _ _,
          le_trans (min_le_right _ _) hlwle⟩



/-- Branch B of the successor loop: the successor is already on the
stack, and its index is folded into the caller low-link. -/
theorem sccStepB (adj : String → List String) (U : List String) (v : String)
    (s0 s : TarjanSt) (w : String) (hw : w ∈ adj v)
    (hinv : SCLoopInv adj U v s0 s) (hnv0 : (mget s0.idxMap v).isSome = false)
    (hwstk : w ∈ s.stack)
    (lv nw : Nat) (hlv : mget s.lowMap v = some lv) (hnw : mget s.idxMap w = some nw) :
    SCLoopInv adj U v s0 { s with lowMap := mset s.lowMap v (min lv nw) } ∧
      SCEvolve v s { s with lowMap := mset s.lowMap v (min lv nw) } ∧
      EdgeBound v { s with lowMap := mset s.lowMap v (min lv nw) } w := by
  obtain ⟨Δ, hstack, hΔnew, hΔstrict⟩ := hinv.shape
  have hnodup := hinv.wf.stack_nodup
  rw [hstack] at hnodup
  obtain ⟨hvΔ, hvrest⟩ := nodup_mid Δ v s0.stack hnodup
  obtain ⟨lv2, hlv2, hlvle⟩ := hinv.low_v
  obtain rfl : lv = lv2 := Option.some_injective _ (hlv.symm.trans hlv2)
  have hvvis : (mget s.idxMap v).isSome = true := by rw [hinv.num_v]; rfl
  have hvne0 : ∀ x, (mget s0.idxMap x).isSome = true → x ≠ v := by
    intro x hx he; rw [he, hnv0] at hx; exact absurd hx (by simp)
  have hwit : ∃ nv y, mget s.idxMap v = some nv ∧ min lv nw ≤ nv ∧ y ∈ s.stack ∧
      mget s.idxMap y = some (min lv nw) ∧ reachOf adj v y := by
    rcases le_total lv nw with hmin | hmin
    · rw [min_eq_left hmin]
      have hvstk : v ∈ s.stack := by
        rw [hstack]; exact List.mem_append_right _ (List.mem_cons_self _ _)
      obtain ⟨nx, lx, y, h1, h2, h3, h4, h5, h6⟩ := hinv.wf.low_wit v hvstk
      obtain rfl : lv = lx := Option.some_injective _ (hlv.symm.trans h2)
      exact ⟨s0.index, y, hinv.num_v, hlvle, h4, h5, h6⟩
    · rw [min_eq_right hmin]
      exact ⟨s0.index, w, hinv.num_v, le_trans hmin hlvle, hwstk, hnw,
        Relation.ReflTransGen.single hw⟩
  have hev : SCEvolve v s { s with lowMap := mset s.lowMap v (min lv nw) } := by
    refine ⟨fun x n h => h, ⟨[], by simp⟩, ?_⟩
    intro lv0 h0
    obtain rfl : lv = lv0 := Option.some_injective _ (hlv.symm.trans h0)
    exact ⟨min lv nw, mget_mset_self _ _ _, min_le_left _ _⟩
  refine ⟨⟨?_, ?_, ?_, ?_, ?_, ?_, ?_, ?_, ?_, ?_, ?_, ?_, ?_⟩, hev, ?_⟩
  · exact tarjanWF_relow adj U s hinv.wf v (min lv nw) hwit
  · refine ⟨Δ, hstack, hΔnew, ?_⟩
    intro x hx
    obtain ⟨lx, nx, h1, h2, h3⟩ := hΔstrict x hx
    have hxv : x ≠ v := fun he => hvΔ (he ▸ hx)
    refine ⟨lx, nx, ?_, h2, h3⟩
    show mget (mset s.lowMap v (min lv nw)) x = some lx
    rw [mget_mset_ne _ _ _ _ hxv]; exact h1
  · exact hinv.num_v
  · exact hinv.num_mono
  · exact hinv.comps_mono
  · exact hinv.index_mono
  · exact hinv.num_new_ge
  · intro x hx0
    have hxv : x ≠ v := hvne0 x hx0
    show mget (mset s.lowMap v (min lv nw)) x = mget s0.lowMap x
    rw [mget_mset_ne _ _ _ _ hxv]
    exact hinv.low_frozen x hx0
  · exact hinv.reach_new
  · exact ⟨min lv nw, mget_mset_self _ _ _, le_trans (min_le_left _ _) hlvle⟩
  · intro x hx0 hxstk
    rcases eq_or_ne x v with rfl | hxv
    · exact ⟨min lv nw, min lv nw, mget_mset_self _ _ _, mget_mset_self _ _ _, le_refl _⟩
    · obtain ⟨lx, lv2, h1, h2, h3⟩ := hinv.subtree_low x hx0 hxstk
      obtain rfl : lv = lv2 := Option.some_injective _ (hlv.symm.trans h2)
      refine ⟨lx, min lv nw, ?_, mget_mset_self _ _ _, le_trans (min_le_left _ _) h3⟩
      show mget (mset s.lowMap v (min lv nw)) x = some lx
      rw [mget_mset_ne _ _ _ _ hxv]; exact h1
  · intro x hx0 hx hxv y hy
    exact edgeBound_mono v s _ y hev (hinv.escape x hx0 hx hxv y hy)
  · have h1 : countU U { s with lowMap := mset s.lowMap v (min lv nw) } = countU U s :=
      countU_congr U _ _ rfl
    rw [h1]
    exact hinv.count_lt
  · constructor
    · show (mget s.idxMap w).isSome = true
      rw [hnw]; rfl
    · exact Or.inr ⟨nw, min lv nw, hnw, mget_mset_self _ _ _, min_le_right _ _⟩

/-- The loop-body lemma: each processed successor preserves the loop
invariant and acquires its edge bound. -/
theorem sccStep_inv (adj : String → List String) (U : List String) (v : String)
    (s0 : TarjanSt) (fuel : Nat)
    (Hadj : ∀ a b, b ∈ adj a → b ∈ U)
    (hacc0 : ∀ y ∈ s0.stack, reachOf adj y v)
    (hnv0 : (mget s0.idxMap v).isSome = false)
    (IH : ∀ w s, TarjanWF adj U s → (mget s.idxMap w).isSome = false → w ∈ U →
      (∀ y ∈ s.stack, reachOf adj y w) → countU U s < fuel →
      SCPost adj U w s (strongConnect adj fuel w s))
    (w : String) (hw : w ∈ adj v) (s : TarjanSt)
    (hinv : SCLoopInv adj U v s0 s)
    (hfuel : countU U s0 ≤ fuel) :
    SCLoopInv adj U v s0 (sccStep adj fuel v s w) ∧
      SCEvolve v s (sccStep adj fuel v s w) ∧
      EdgeBound v (sccStep adj fuel v s w) w := by
  obtain ⟨Δ, hstack, hΔnew, hΔstrict⟩ := hinv.shape
  obtain ⟨lv, hlv, hlvle⟩ := hinv.low_v
  by_cases hc : (mget s.idxMap w).isNone = true
  · -- fresh successor: recursive call
    have hwnone : mget s.idxMap w = none := Option.isNone_iff_eq_none.mp hc
    have hwnew : (mget s.idxMap w).isSome = false := by rw [hwnone]; rfl
    have haccw : ∀ y ∈ s.stack, reachOf adj y w := by
      intro y hy
      rw [hstack] at hy
      rcases List.mem_append.mp hy with hyΔ | hyc
      · exact (lowlink_descent adj U s hinv.wf Δ v s0.stack hstack hΔstrict hacc0
          y hyΔ).tail hw
      · rcases List.mem_cons.mp hyc with rfl | hyr
        · exact Relation.ReflTransGen.single hw
        · exact (hacc0 y hyr).tail hw
    have post := IH w s hinv.wf hwnew (Hadj v w hw) haccw
      (lt_of_lt_of_le hinv.count_lt hfuel)
    obtain ⟨lw, hlw, hlwle⟩ := post.low_le
    have hlv' : mget (strongConnect adj fuel w s).lowMap v = some lv := by
      rw [post.low_frozen v (by rw [hinv.num_v]; rfl)]; exact hlv
    have heq : sccStep adj fuel v s w =
        { strongConnect adj fuel w s with
          lowMap := mset (strongConnect adj fuel w s).lowMap v (min lv lw) } := by
      unfold sccStep
      rw [if_pos hc, hlv', hlw]
      simp
    rw [heq]
    exact sccStepA adj U v s0 s (strongConnect adj fuel w s) w hw
      ⟨hinv.wf, ⟨Δ, hstack, hΔnew, hΔstrict⟩, hinv.num_v, hinv.num_mono, hinv.comps_mono,
        hinv.index_mono, hinv.num_new_ge, hinv.low_frozen, hinv.reach_new,
        ⟨lv, hlv, hlvle⟩, hinv.subtree_low, hinv.escape, hinv.count_lt⟩
      hnv0 hwnew post lv lw hlv hlw
  · -- already visited
    have hwvis : (mget s.idxMap w).isSome = true := by
      rcases hm : mget s.idxMap w with _ | n
      · rw [hm] at hc; exact absurd rfl hc
      · rfl
    by_cases hc2 : w ∈ s.onStack
    · -- on the stack: back edge
      have hwstk : w ∈ s.stack := by rw [← hinv.wf.onstack_eq]; exact hc2
      obtain ⟨nw, hnw⟩ := Option.isSome_iff_exists.mp hwvis
      have heq : sccStep adj fuel v s w =
          { s with lowMap := mset s.lowMap v (min lv nw) } := by
        unfold sccStep
        rw [if_neg hc, if_pos hc2, hlv, hnw]
        simp
      rw [heq]
      exact sccStepB adj U v s0 s w hw
        ⟨hinv.wf, ⟨Δ, hstack, hΔnew, hΔstrict⟩, hinv.num_v, hinv.num_mono, hinv.comps_mono,
          hinv.index_mono, hinv.num_new_ge, hinv.low_frozen, hinv.reach_new,
          ⟨lv, hlv, hlvle⟩, hinv.subtree_low, hinv.escape, hinv.count_lt⟩
        hnv0 hwstk lv nw hlv hnw
    · -- already assigned: nothing changes
      have heq : sccStep adj fuel v s w = s := by
        unfold sccStep
        rw [if_neg hc, if_neg hc2]
      rw [heq]
      refine ⟨⟨hinv.wf, ⟨Δ, hstack, hΔnew, hΔstrict⟩, hinv.num_v, hinv.num_mono,
        hinv.comps_mono, hinv.index_mono, hinv.num_new_ge, hinv.low_frozen,
        hinv.reach_new, ⟨lv, hlv, hlvle⟩, hinv.subtree_low, hinv.escape, hinv.count_lt⟩,
        scEvolve_refl v s, hwvis, ?_⟩
      have hwnstk : w ∉ s.stack := by rw [← hinv.wf.onstack_eq]; exact hc2
      rcases hinv.wf.visited_cases w hwvis with hstk | hass
      · exact absurd hstk hwnstk
      · exact Or.inl hass



/-- Folding the loop body over any sublist of the successors preserves
the invariant and bounds every processed successor. -/
theorem sccLoop_inv (adj : String → List String) (U : List String) (v : String)
    (s0 : TarjanSt) (fuel : Nat)
    (Hadj : ∀ a b, b ∈ adj a → b ∈ U)
    (hacc0 : ∀ y ∈ s0.stack, reachOf adj y v)
    (hnv0 : (mget s0.idxMap v).isSome = false)
    (IH : ∀ w s, TarjanWF adj U s → (mget s.idxMap w).isSome = false → w ∈ U →
      (∀ y ∈ s.stack, reachOf adj y w) → countU U s < fuel →
      SCPost adj U w s (strongConnect adj fuel w s))
    (hfuel : countU U s0 ≤ fuel) :
    ∀ (todo : List String) (s : TarjanSt), (∀ w ∈ todo, w ∈ adj v) →
      SCLoopInv adj U v s0 s →
      SCLoopInv adj U v s0 (todo.foldl (sccStep adj fuel v) s) ∧
        SCEvolve v s (todo.foldl (sccStep adj fuel v) s) ∧
        ∀ y ∈ todo, EdgeBound v (todo.foldl (sccStep adj fuel v) s) y
  | [], s, _, hinv => ⟨hinv, scEvolve_refl v s, fun y hy => absurd hy (List.not_mem_nil y)⟩
  | w :: rest, s, htodo, hinv => by
    have hstep := sccStep_inv adj U v s0 fuel Hadj hacc0 hnv0 IH w
      (htodo w (List.mem_cons_self _ _)) s hinv hfuel
    have hrec := sccLoop_inv adj U v s0 fuel Hadj hacc0 hnv0 IH hfuel rest
      (sccStep adj fuel v s w) (fun y hy => htodo y (List.mem_cons_of_mem _ hy)) hstep.1
    rw [List.foldl_cons]
    refine ⟨hrec.1, scEvolve_trans v _ _ _ hstep.2.1 hrec.2.1, ?_⟩
    intro y hy
    rcases List.mem_cons.mp hy with rfl | hyr
    · exact edgeBound_mono v _ _ y hrec.2.1 hstep.2.2
    · exact hrec.2.2 y hyr

/-- The full specification of `strongConnect`, by induction on the fuel. -/
theorem strongConnect_post (adj : String → List String) (U : List String)
    (Hadj : ∀ a b, b ∈ adj a → b ∈ U) :
    ∀ (fuel : Nat) (v : String) (s0 : TarjanSt),
      TarjanWF adj U s0 → (mget s0.idxMap v).isSome = false → v ∈ U →
      (∀ y ∈ s0.stack, reachOf adj y v) → countU U s0 < fuel →
      SCPost adj U v s0 (strongConnect adj fuel v s0) := by
  intro fuel
  induction fuel with
  | zero => intro v s0 _ _ _ _ hcnt; exact absurd hcnt (by omega)
  | succ fuel ih =>
    intro v s0 wf0 hnv0 hvU hacc0 hcnt
    have hfuel : countU U s0 ≤ fuel := Nat.lt_succ_iff.mp hcnt
    have hentry := scEntry adj U v s0 wf0 hnv0 hvU hacc0
    have hloop := sccLoop_inv adj U v s0 fuel Hadj hacc0 hnv0 ih hfuel (adj v)
      (pushSt v s0) (fun _ hw => hw) hentry
    rw [strongConnect_succ]
    set sE := (adj v).foldl (sccStep adj fuel v) (pushSt v s0) with hsE
    obtain ⟨linvE, _, boundsE⟩ := hloop
    obtain ⟨ΔE, hstackE, hΔEnew, hΔEstrict⟩ := linvE.shape
    obtain ⟨lvE, hlvE, hlvEle⟩ := linvE.low_v
    have hnodupE := linvE.wf.stack_nodup
    rw [hstackE] at hnodupE
    obtain ⟨hvΔE, hvrest⟩ := nodup_mid ΔE v s0.stack hnodupE
    have hrestlow : ∀ y ∈ s0.stack, ∃ n, mget sE.idxMap y = some n ∧ n < s0.index := by
      intro y hy
      obtain ⟨n, hn⟩ := Option.isSome_iff_exists.mp (wf0.stack_visited y hy)
      exact ⟨n, linvE.num_mono y n hn, wf0.num_lt_index y n hn⟩
    have hSnum : ∀ x, x ∈ ΔE ∨ x = v → ∃ n, mget sE.idxMap x = some n ∧ s0.index ≤ n := by
      intro x hx
      rcases hx with hxΔ | rfl
      · have hvis := linvE.wf.stack_visited x
          (by rw [hstackE]; exact List.mem_append_left _ hxΔ)
        obtain ⟨n, hn⟩ := Option.isSome_iff_exists.mp hvis
        exact ⟨n, hn, linvE.num_new_ge x n (hΔEnew x hxΔ) hn⟩
      · exact ⟨s0.index, linvE.num_v, le_refl _⟩
    by_cases hpop : mget sE.lowMap v = mget sE.idxMap v
    · -- the call pops its component
      rw [if_pos hpop]
      have hlveq : lvE = s0.index := by
        rw [hlvE, linvE.num_v] at hpop
        exact Option.some_injective _ hpop
      have hpopst : popSt v sE =
          { sE with
            stack := s0.stack
            onStack := s0.stack
            comps := sE.comps ++ [ΔE ++ [v]] } := by
        unfold popSt
        rw [linvE.wf.onstack_eq, hstackE, popComp_eq v s0.stack ΔE [] hvΔE]
        simp
      rw [hpopst]
      have hSvis : ∀ x, x ∈ ΔE ∨ x = v → (mget sE.idxMap x).isSome = true := by
        intro x hx
        obtain ⟨n, hn, _⟩ := hSnum x hx
        rw [hn]; rfl
      have hSnew : ∀ x, x ∈ ΔE ∨ x = v → (mget s0.idxMap x).isSome = false := by
        intro x hx
        rcases hx with hxΔ | rfl
        · exact hΔEnew x hxΔ
        · exact hnv0
      have hSreachV : ∀ x, x ∈ ΔE ∨ x = v → reachOf adj x v := by
        intro x hx
        rcases hx with hxΔ | rfl
        · exact lowlink_descent adj U sE linvE.wf ΔE v s0.stack hstackE hΔEstrict
            hacc0 x hxΔ
        · exact Relation.ReflTransGen.refl
      have hVreachS : ∀ x, x ∈ ΔE ∨ x = v → reachOf adj v x := by
        intro x hx
        rcases hx with hxΔ | rfl
        · exact linvE.reach_new x (hΔEnew x hxΔ) (hSvis x (Or.inl hxΔ))
        · exact Relation.ReflTransGen.refl
      have hmemS : ∀ x, x ∈ ΔE ++ [v] ↔ (x ∈ ΔE ∨ x = v) := by
        intro x
        rw [List.mem_append, List.mem_singleton]
      have hSsubstk : ∀ x ∈ ΔE ++ [v], x ∈ sE.stack := by
        intro x hx
        rw [hstackE]
        rcases (hmemS x).mp hx with hxΔ | rfl
        · exact List.mem_append_left _ hxΔ
        · exact List.mem_append_right _ (List.mem_cons_self _ _)
      have hSchar : ∀ z, z ∈ sE.stack →
          (∃ n, mget sE.idxMap z = some n ∧ s0.index ≤ n) → z ∈ ΔE ++ [v] := by
        intro z hz ⟨n, hn, hge⟩
        rw [hstackE] at hz
        rcases List.mem_append.mp hz with hzΔ | hzc
        · exact (hmemS z).mpr (Or.inl hzΔ)
        · rcases List.mem_cons.mp hzc with rfl | hzr
          · exact (hmemS z).mpr (Or.inr rfl)
          · obtain ⟨m, hm, hlt⟩ := hrestlow z hzr
            obtain rfl : n = m := Option.some_injective _ (hn.symm.trans hm)
            omega
      have hescS : ∀ z ∈ ΔE ++ [v], ∀ y ∈ adj z, (mget sE.idxMap y).isSome = true ∧
          (y ∈ sE.comps.flatten ∨ ∃ ny, mget sE.idxMap y = some ny ∧ s0.index ≤ ny) := by
        intro z hz y hy
        rcases (hmemS z).mp hz with hzΔ | rfl
        · have hzv : z ≠ v := fun he => hvΔE (he ▸ hzΔ)
          obtain ⟨h1, h2⟩ := linvE.escape z (hΔEnew z hzΔ) (hSvis z (Or.inl hzΔ)) hzv y hy
          refine ⟨h1, ?_⟩
          rcases h2 with hass | ⟨ny, lv2, hny, hlv2, hle⟩
          · exact Or.inl hass
          · obtain rfl : lvE = lv2 := Option.some_injective _ (hlvE.symm.trans hlv2)
            exact Or.inr ⟨ny, hny, hlveq ▸ hle⟩
        · obtain ⟨h1, h2⟩ := boundsE y hy
          refine ⟨h1, ?_⟩
          rcases h2 with hass | ⟨ny, lv2, hny, hlv2, hle⟩
          · exact Or.inl hass
          · obtain rfl : lvE = lv2 := Option.some_injective _ (hlvE.symm.trans hlv2)
            exact Or.inr ⟨ny, hny, hlveq ▸ hle⟩
      have hchase := escape_chase adj U sE linvE.wf (ΔE ++ [v]) s0.index
        hSsubstk hSchar hescS
      have hSnodup : (ΔE ++ [v]).Nodup := by
        have hsub : (ΔE ++ [v]).Sublist (ΔE ++ v :: s0.stack) := by
          refine List.Sublist.append_left ?_ ΔE
          exact List.cons_sublist_cons.mpr (List.nil_sublist _)
        exact hsub.nodup hnodupE
      have hdisj : ∀ y ∈ s0.stack, y ∉ ΔE ++ [v] := by
        intro y hy hmem
        rcases (hmemS y).mp hmem with hyΔ | rfl
        · rw [List.nodup_append] at hnodupE
          exact hnodupE.2.2 hyΔ (List.mem_cons_of_mem _ hy)
        · exact hvrest hy
      have hs0nodup : s0.stack.Nodup := wf0.stack_nodup
      have hflat : ∀ x, x ∈ (sE.comps ++ [ΔE ++ [v]]).flatten ↔
          (x ∈ sE.comps.flatten ∨ x ∈ ΔE ++ [v]) := by
        intro x
        rw [List.flatten_append]
        simp
      refine ⟨⟨rfl, hs0nodup, ?_, ?_, ?_, ?_, linvE.wf.num_lt_index, linvE.wf.num_inj,
        ?_, ?_, ?_, linvE.wf.visited_mem⟩,
        linvE.num_mono, ?_, linvE.num_v, linvE.index_mono, linvE.num_new_ge,
        linvE.low_frozen, linvE.reach_new, ?_, ⟨lvE, hlvE, hlvEle⟩, ?_, ?_, ?_⟩
      · -- stack_visited
        intro y hy
        exact linvE.wf.stack_visited y
          (by rw [hstackE]; exact List.mem_append_right _ (List.mem_cons_of_mem _ hy))
      · -- stack_not_assigned
        intro y hy hass
        rw [hflat] at hass
        rcases hass with hold | hS
        · exact linvE.wf.stack_not_assigned y
            (by rw [hstackE]; exact List.mem_append_right _ (List.mem_cons_of_mem _ hy)) hold
        · exact hdisj y hy hS
      · -- visited_cases
        intro x hx
        rcases linvE.wf.visited_cases x hx with hstk | hass
        · rw [hstackE] at hstk
          rcases List.mem_append.mp hstk with hxΔ | hxc
          · exact Or.inr ((hflat x).mpr (Or.inr ((hmemS x).mpr (Or.inl hxΔ))))
          · rcases List.mem_cons.mp hxc with rfl | hxr
            · exact Or.inr ((hflat x).mpr (Or.inr ((hmemS x).mpr (Or.inr rfl))))
            · exact Or.inl hxr
        · exact Or.inr ((hflat x).mpr (Or.inl hass))
      · -- assigned_visited
        intro x hx
        rw [hflat] at hx
        rcases hx with hold | hS
        · exact linvE.wf.assigned_visited x hold
        · exact hSvis x ((hmemS x).mp hS)
      · -- stack_reach
        intro x hxm y hym nx ny hx hy hle
        exact linvE.wf.stack_reach x
          (by rw [hstackE]; exact List.mem_append_right _ (List.mem_cons_of_mem _ hxm)) y
          (by rw [hstackE]; exact List.mem_append_right _ (List.mem_cons_of_mem _ hym))
          nx ny hx hy hle
      · -- low_wit
        intro x hxm
        obtain ⟨nx, lx, y, h1, h2, h3, h4, h5, h6⟩ := linvE.wf.low_wit x
          (by rw [hstackE]; exact List.mem_append_right _ (List.mem_cons_of_mem _ hxm))
        refine ⟨nx, lx, y, h1, h2, h3, ?_, h5, h6⟩
        rw [hstackE] at h4
        rcases List.mem_append.mp h4 with hyΔ | hyc
        · exfalso
          obtain ⟨m, hm, hgem⟩ := hSnum y (Or.inl hyΔ)
          obtain rfl : lx = m := Option.some_injective _ (h5.symm.trans hm)
          obtain ⟨mx, hmx, hltx⟩ := hrestlow x hxm
          obtain rfl : nx = mx := Option.some_injective _ (h1.symm.trans hmx)
          omega
        · rcases List.mem_cons.mp hyc with rfl | hyr
          · exfalso
            obtain ⟨m, hm, hgem⟩ := hSnum y (Or.inr rfl)
            obtain rfl : lx = m := Option.some_injective _ (h5.symm.trans hm)
            obtain ⟨mx, hmx, hltx⟩ := hrestlow x hxm
            obtain rfl : nx = mx := Option.some_injective _ (h1.symm.trans hmx)
            omega
          · exact hyr
      · -- comps_ok
        intro c hc
        rcases List.mem_append.mp hc with hold | hnew
        · exact linvE.wf.comps_ok c hold
        · rw [List.mem_singleton] at hnew
          subst hnew
          refine ⟨hSnodup, ?_, ?_⟩
          · intro x hx y hy
            exact Relation.ReflTransGen.trans (hSreachV x ((hmemS x).mp hx))
              (hVreachS y ((hmemS y).mp hy))
          · intro x hx y hxy hyx
            exact hchase x hx y hxy hyx
      · -- comps_mono
        obtain ⟨c1, hc1⟩ := linvE.comps_mono
        exact ⟨c1 ++ [ΔE ++ [v]], by
          show sE.comps ++ [ΔE ++ [v]] = s0.comps ++ (c1 ++ [ΔE ++ [v]])
          rw [hc1, List.append_assoc]⟩
      · -- stack_shape
        exact Or.inl ⟨rfl, (hflat v).mpr (Or.inr ((hmemS v).mpr (Or.inr rfl))), hpop⟩
      · -- subtree_low
        intro x hx0 hxstk
        exfalso
        have := wf0.stack_visited x hxstk
        rw [this] at hx0
        exact absurd hx0 (by simp)
      · -- escape
        intro x hx0 hx y hy
        have hbase : (mget sE.idxMap y).isSome = true ∧
            (y ∈ sE.comps.flatten ∨ ∃ ny lv2, mget sE.idxMap y = some ny ∧
              mget sE.lowMap v = some lv2 ∧ lv2 ≤ ny) := by
          rcases eq_or_ne x v with rfl | hxv
          · exact boundsE y hy
          · exact linvE.escape x hx0 hx hxv y hy
        refine ⟨hbase.1, ?_⟩
        rcases hbase.2 with hass | ⟨ny, lv2, hny, hlv2, hle⟩
        · exact Or.inl ((hflat y).mpr (Or.inl hass))
        · exact Or.inr ⟨ny, lv2, hny, hlv2, hle⟩
      · -- count_lt
        have heqc : countU U { sE with
            stack := s0.stack
            onStack := s0.stack
            comps := sE.comps ++ [ΔE ++ [v]] } = countU U sE := countU_congr U _ _ rfl
        rw [heqc]
        exact linvE.count_lt
    · -- no pop: the vertex stays on the stack with a strict low-link
      rw [if_neg hpop]
      have hstrictv : lvE < s0.index := by
        refine lt_of_le_of_ne hlvEle ?_
        intro he
        exact hpop (by rw [hlvE, linvE.num_v, he])
      refine ⟨linvE.wf, linvE.num_mono, linvE.comps_mono, linvE.num_v, linvE.index_mono,
        linvE.num_new_ge, linvE.low_frozen, linvE.reach_new, ?_,
        ⟨lvE, hlvE, hlvEle⟩, linvE.subtree_low, ?_, linvE.count_lt⟩
      · -- stack_shape
        refine Or.inr ⟨ΔE, hstackE, hΔEnew, ?_⟩
        intro x hx
        rcases hx with hxΔ | rfl
        · exact hΔEstrict x hxΔ
        · exact ⟨lvE, s0.index, hlvE, linvE.num_v, hstrictv⟩
      · -- escape
        intro x hx0 hx y hy
        rcases eq_or_ne x v with rfl | hxv
        · exact boundsE y hy
        · exact linvE.escape x hx0 hx hxv y hy



/-- The unvisited count never exceeds the universe length. -/
theorem countU_le_length (U : List String) (st : TarjanSt) : countU U st ≤ U.length :=
  le_trans (Finset.card_le_card (Finset.filter_subset _ _)) (List.toFinset_card_le U)

/-- The driver loop of `computeScc`: starting from an empty stack, every
listed vertex ends up visited, the invariant holds, and the stack is
empty again. -/
theorem sccFold_inv (adj : String → List String) (U : List String)
    (Hadj : ∀ a b, b ∈ adj a → b ∈ U) (fuel : Nat) (hfuel : U.length < fuel) :
    ∀ (l : List String) (st : TarjanSt), (∀ x ∈ l, x ∈ U) → TarjanWF adj U st →
      st.stack = [] →
      TarjanWF adj U (l.foldl (fun st id =>
        if (mget st.idxMap id).isNone then strongConnect adj fuel id st else st) st) ∧
        (l.foldl (fun st id =>
          if (mget st.idxMap id).isNone then strongConnect adj fuel id st else st) st).stack
          = [] ∧
        (∀ x n, mget st.idxMap x = some n → mget (l.foldl (fun st id =>
          if (mget st.idxMap id).isNone then strongConnect adj fuel id st else st)
            st).idxMap x = some n) ∧
        (∀ x ∈ l, (mget (l.foldl (fun st id =>
          if (mget st.idxMap id).isNone then strongConnect adj fuel id st else st)
            st).idxMap x).isSome = true)
  | [], st, _, hwf, hstk => ⟨hwf, hstk, fun _ _ h => h, by simp⟩
  | id :: rest, st, hmem, hwf, hstk => by
    rw [List.foldl_cons]
    by_cases hc : (mget st.idxMap id).isNone = true
    · rw [if_pos hc]
      have hnew : (mget st.idxMap id).isSome = false := by
        rw [Option.isNone_iff_eq_none.mp hc]; rfl
      have post := strongConnect_post adj U Hadj fuel id st hwf hnew
        (hmem id (List.mem_cons_self _ _))
        (by rw [hstk]; intro y hy; cases hy)
        (lt_of_le_of_lt (countU_le_length U st) hfuel)
      have hstk' : (strongConnect adj fuel id st).stack = [] := by
        rcases post.stack_shape with ⟨hseq, _, _⟩ | ⟨Δ, hseq, hΔnew, hstrict⟩
        · rw [hseq, hstk]
        · exfalso
          obtain ⟨lx, nx, hl, hn, hlt⟩ := hstrict id (Or.inr rfl)
          obtain rfl : nx = st.index := Option.some_injective _ (hn.symm.trans post.num_v)
          have hvstk : id ∈ (strongConnect adj fuel id st).stack := by
            rw [hseq]; exact List.mem_append_right _ (List.mem_cons_self _ _)
          obtain ⟨nx2, lx2, y, h1, h2, h3, h4, h5, h6⟩ := post.wf.low_wit id hvstk
          obtain rfl : lx = lx2 := Option.some_injective _ (hl.symm.trans h2)
          rw [hseq, hstk] at h4
          rcases List.mem_append.mp h4 with hyΔ | hyc
          · have := post.num_new_ge y lx (hΔnew y hyΔ) h5
            omega
          · rcases List.mem_cons.mp hyc with rfl | hyn
            · obtain rfl : lx = st.index := Option.some_injective _ (h5.symm.trans post.num_v)
              omega
            · cases hyn
      have hrec := sccFold_inv adj U Hadj fuel hfuel rest (strongConnect adj fuel id st)
        (fun x hx => hmem x (List.mem_cons_of_mem _ hx)) post.wf hstk'
      refine ⟨hrec.1, hrec.2.1, fun x n h => hrec.2.2.1 x n (post.num_mono x n h), ?_⟩
      intro x hx
      rcases List.mem_cons.mp hx with rfl | hxr
      · rw [hrec.2.2.1 x st.index post.num_v]; rfl
      · exact hrec.2.2.2 x hxr
    · rw [if_neg hc]
      have hvis : (mget st.idxMap id).isSome = true := by
        rcases hm : mget st.idxMap id with _ | n
        · rw [hm] at hc; exact absurd rfl hc
        · rfl
      have hrec := sccFold_inv adj U Hadj fuel hfuel rest st
        (fun x hx => hmem x (List.mem_cons_of_mem _ hx)) hwf hstk
      refine ⟨hrec.1, hrec.2.1, hrec.2.2.1, ?_⟩
      intro x hx
      rcases List.mem_cons.mp hx with rfl | hxr
      · obtain ⟨n, hn⟩ := Option.isSome_iff_exists.mp hvis
        rw [hrec.2.2.1 x n hn]; rfl
      · exact hrec.2.2.2 x hxr

/-- A nodup list of length at least two holds an element different from
any given one. -/
theorem exists_other_mem {α : Type} (l : List α) (hnd : l.Nodup) (hlen : 1 < l.length)
    (x : α) : ∃ u ∈ l, u ≠ x := by
  match l, hnd, hlen with
  | a :: b :: rest, hnd, _ =>
    have hab : a ≠ b := by
      have := (List.nodup_cons.mp hnd).1
      exact fun he => this (he ▸ List.mem_cons_self _ _)
    by_cases hax : a = x
    · exact ⟨b, List.mem_cons_of_mem _ (List.mem_cons_self _ _),
        fun he => hab (hax ▸ he ▸ rfl)⟩
    · exact ⟨a, List.mem_cons_self _ _, hax⟩

/-- Two distinct members force length at least two. -/
theorem one_lt_length_of_two_mem {α : Type} (l : List α) (x u : α) (hx : x ∈ l)
    (hu : u ∈ l) (hne : u ≠ x) : 1 < l.length := by
  match l with
  | [] => cases hx
  | [a] =>
    rw [List.mem_singleton] at hx hu
    exact absurd (hu.trans hx.symm) hne
  | a :: b :: rest => simp only [List.length_cons]; omega

/-- The maximum fold dominates the seed. -/
theorem foldl_max_seed (l : List (List String)) (a : Nat) :
    a ≤ l.foldl (fun m c => max m c.length) a := by
  induction l generalizing a with
  | nil => exact le_refl a
  | cons d l ih =>
    rw [List.foldl_cons]
    exact le_trans (le_max_left a d.length) (ih (max a d.length))

/-- The maximum fold dominates every member. -/
theorem foldl_max_ge (l : List (List String)) :
    ∀ (a : Nat) (c : List String), c ∈ l →
      c.length ≤ l.foldl (fun m c => max m c.length) a := by
  induction l with
  | nil => intro a c hc; cases hc
  | cons d l ih =>
    intro a c hc
    rw [List.foldl_cons]
    rcases List.mem_cons.mp hc with rfl | hcl
    · exact le_trans (le_max_right a c.length) (foldl_max_seed l _)
    · exact ih _ c hcl

/-- `hasId` tests membership in the id list. -/
theorem hasId_iff (ns : List PNode) (x : String) :
    hasId ns x = true ↔ x ∈ ns.map PNode.id := by
  rw [hasId, List.any_eq_true, List.mem_map]
  constructor
  · rintro ⟨n, hn, he⟩
    exact ⟨n, hn, by rwa [beq_iff_eq] at he⟩
  · rintro ⟨n, hn, he⟩
    exact ⟨n, hn, by rwa [beq_iff_eq]⟩

/-- The adjacency of `computeScc` stays inside the id list. -/
theorem sccAdj_mem (ns : List PNode) (es : List RawEdge) :
    ∀ a b, b ∈ sccAdj ns es a → b ∈ ns.map PNode.id := by
  intro a b hb
  unfold sccAdj at hb
  rw [List.mem_map] at hb
  obtain ⟨e, he, rfl⟩ := hb
  rw [List.mem_filter] at he
  have h2 := he.2
  simp only [Bool.and_eq_true] at h2
  exact (hasId_iff ns e.t).mp h2.1.2




/-- `computeScc` re-expressed through `sccFinal`; definitional. -/
theorem computeScc_eq_final (ns : List PNode) (es : List RawEdge) :
    computeScc ns es =
      { sccCount := ((sccFinal ns es).comps.filter (fun c => decide (1 < c.length))).length
        cyclicNodes := jsSetOfList
          ((sccFinal ns es).comps.filter (fun c => decide (1 < c.length))).flatten
        largestScc := ((sccFinal ns es).comps.filter
          (fun c => decide (1 < c.length))).foldl (fun m c => max m c.length) 0 } := rfl

/-- The full specification of `computeScc`: membership in `cyclicNodes`
is mutual reachability with a distinct partner, the cyclic node list is
duplicate-free, and any counted component has size at least two. -/
theorem computeScc_spec (ns : List PNode) (es : List RawEdge) :
    (∀ x, x ∈ (computeScc ns es).cyclicNodes ↔ (x ∈ ns.map PNode.id ∧
      ∃ u, u ≠ x ∧ reachOf (sccAdj ns es) x u ∧ reachOf (sccAdj ns es) u x)) ∧
      (computeScc ns es).cyclicNodes.Nodup ∧
      (0 < (computeScc ns es).sccCount → 2 ≤ (computeScc ns es).largestScc) := by
  have hfold := sccFold_inv (sccAdj ns es) (ns.map PNode.id) (sccAdj_mem ns es)
    ((ns.map PNode.id).length + 1) (Nat.lt_succ_self _) (ns.map PNode.id)
    ⟨0, [], [], [], [], []⟩ (fun x hx => hx)
    (tarjanWF_init (sccAdj ns es) (ns.map PNode.id)) rfl
  obtain ⟨wfF, hstkF, _, hvisF⟩ := hfold
  rw [computeScc_eq_final]
  have hstF : sccFinal ns es = (ns.map PNode.id).foldl
      (fun st id =>
        if (mget st.idxMap id).isNone then
          strongConnect (sccAdj ns es) ((ns.map PNode.id).length + 1) id st
        else st)
      ⟨0, [], [], [], [], []⟩ := rfl
  rw [← hstF] at wfF hstkF hvisF
  refine ⟨?_, nodup_jsSetOfList _, ?_⟩
  · intro x
    rw [mem_jsSetOfList, List.mem_flatten]
    constructor
    · rintro ⟨c, hcf, hxc⟩
      rw [List.mem_filter] at hcf
      obtain ⟨hcm, hclen⟩ := hcf
      rw [decide_eq_true_eq] at hclen
      obtain ⟨hnd, hSC, hclosed⟩ := wfF.comps_ok c hcm
      have hxU : x ∈ ns.map PNode.id :=
        wfF.visited_mem x (wfF.assigned_visited x (List.mem_flatten.mpr ⟨c, hcm, hxc⟩))
      obtain ⟨u, huc, hune⟩ := exists_other_mem c hnd hclen x
      exact ⟨hxU, u, hune, hSC x hxc u huc, hSC u huc x hxc⟩
    · rintro ⟨hxU, u, hune, hxu, hux⟩
      have hvis := hvisF x hxU
      rcases wfF.visited_cases x hvis with hstk | hass
      · rw [hstkF] at hstk
        cases hstk
      · rw [List.mem_flatten] at hass
        obtain ⟨c, hcm, hxc⟩ := hass
        obtain ⟨hnd, hSC, hclosed⟩ := wfF.comps_ok c hcm
        have huc : u ∈ c := hclosed x hxc u hxu hux
        refine ⟨c, ?_, hxc⟩
        rw [List.mem_filter, decide_eq_true_eq]
        exact ⟨hcm, one_lt_length_of_two_mem c x u hxc huc hune⟩
  · intro hpos
    have hne : ((sccFinal ns es).comps.filter (fun c => decide (1 < c.length))) ≠ [] := by
      intro he
      rw [he] at hpos
      exact absurd hpos (by simp)
    obtain ⟨c, hc⟩ := List.exists_mem_of_ne_nil _ hne
    have hclen : 1 < c.length := by
      rw [List.mem_filter, decide_eq_true_eq] at hc
      exact hc.2
    exact le_trans (by omega) (foldl_max_ge _ 0 c hc)



/-- The cyclic node list enumerates the mathematical union of the
nontrivial strongly connected components, without duplicates. -/
theorem cyclicNodes_length_eq (ns : List PNode) (es : List RawEdge) :
    (computeScc ns es).cyclicNodes.length = (cyclicIdSet ns es).card := by
  classical
  have hspec := computeScc_spec ns es
  rw [← List.toFinset_card_of_nodup hspec.2.1]
  congr 1
  ext x
  rw [List.mem_toFinset, hspec.1 x]
  unfold cyclicIdSet
  rw [Finset.mem_filter, List.mem_toFinset]

/-- `cycleParticipation` is one hundred times the share of nodes lying
on a directed cycle of the valid non-self-loop edge graph. -/
theorem cycleParticipation_eq (name : String) (doc : RawDoc) (opts : Opts) (tz : Int) :
    (computeMetricsForProject name doc opts tz).cycleParticipation =
      100 * ((cyclicIdSet (pNodes doc tz) (pEdges doc tz)).card : ℚ) /
        ((pNodes doc tz).length : ℚ) := by
  have h1 : (computeMetricsForProject name doc opts tz).cycleParticipation =
      pctQ (computeScc (pNodes doc tz) (pEdges doc tz)).cyclicNodes.length
        (pNodes doc tz).length := rfl
  rw [h1, cyclicNodes_length_eq]
  unfold pctQ
  by_cases hz : (pNodes doc tz).length = 0
  · rw [if_pos hz, hz]
    simp
  · rw [if_neg hz, div_mul_eq_mul_div,
      mul_comm ((cyclicIdSet (pNodes doc tz) (pEdges doc tz)).card : ℚ) 100]



/-- C6: for every project, `cycleParticipation` equals 100 times the
size of the union of the node sets of the nontrivial strongly connected
components of the valid non-self-loop edge graph (the nodes with a
distinct mutually reachable partner), divided by the total node count;
membership in the cyclic node set is exactly mutual reachability with a
distinct partner; any project with a counted cyclic component has
`largestScc` at least 2; and the Scenario B input yields `sccCount = 1`,
`largestScc = 2`, `cycleParticipation = 100`, and `reciprocityPairs = 1`. -/
theorem c6_scc_cycle_participation :
    (∀ (name : String) (doc : RawDoc) (opts : Opts) (tz : Int),
      (computeMetricsForProject name doc opts tz).cycleParticipation =
        100 * ((cyclicIdSet (pNodes doc tz) (pEdges doc tz)).card : ℚ) /
          ((pNodes doc tz).length : ℚ)) ∧
      (∀ (ns : List PNode) (es : List RawEdge) (x : String),
        x ∈ (computeScc ns es).cyclicNodes ↔ (x ∈ ns.map PNode.id ∧
          ∃ u, u ≠ x ∧ reachOf (sccAdj ns es) x u ∧ reachOf (sccAdj ns es) u x)) ∧
      (∀ (ns : List PNode) (es : List RawEdge),
        0 < (computeScc ns es).sccCount → 2 ≤ (computeScc ns es).largestScc) ∧
      (computeMetricsForProject "B" docB {} 0).sccCount = 1 ∧
      (computeMetricsForProject "B" docB {} 0).largestScc = 2 ∧
      (computeMetricsForProject "B" docB {} 0).cycleParticipation = 100 ∧
      (computeMetricsForProject "B" docB {} 0).reciprocityPairs = 1 := by
  refine ⟨fun name doc opts tz => cycleParticipation_eq name doc opts tz,
    fun ns es x => (computeScc_spec ns es).1 x,
    fun ns es => (computeScc_spec ns es).2.2, ?_⟩
  with_unfolding_all decide

/-- C6, witness: the hypothesis-bearing conjunct applied to the concrete
Scenario B graph, whose counted component count is positive. -/
theorem c6_scc_cycle_participation_witness :
    0 < (computeScc (pNodes docB 0) (pEdges docB 0)).sccCount ∧
      2 ≤ (computeScc (pNodes docB 0) (pEdges docB 0)).largestScc ∧
      (computeMetricsForProject "B" docB {} 0).cycleParticipation =
        100 * ((cyclicIdSet (pNodes docB 0) (pEdges docB 0)).card : ℚ) /
          ((pNodes docB 0).length : ℚ) :=
  ⟨by decide, c6_scc_cycle_participation.2.2.1 (pNodes docB 0) (pEdges docB 0) (by decide),
    c6_scc_cycle_participation.1 "B" docB {} 0⟩

end Threadscape
